import Mathlib

/-!
Verification model of the FBGEMM JIT kernel generators.

The definitions below are a shallow embedding of two source files:

* `src/EmbeddingSpMDM.cc` — the JIT generator for the embedding
  sparse-lengths-sum kernel (`GenEmbeddingSpMDMLookup::getOrCreate`) and the
  `EmbeddingSpMDM` dispatch entry point.  The generated machine code is
  modelled by an interpreter (`embKernel`) that mirrors the emitted control
  flow: the outer output-row loop, the unroll-factor chunk loop over vector
  registers (with index/weight cursor rewind between chunks), the per-chunk
  out-of-bound check on the index cursor, the per-index range check, the
  fused 8-bit dequantization arithmetic, length normalization, and the final
  index-cursor check.  Floating point arithmetic is idealized over `ℚ`.

* the unnamed GEMM micro-kernel generator file
  (`CodeGenBase<uint8_t,int8_t,int32_t,int32_t>::getOrCreate<avx512>` and its
  `initCRegs`/`genComputeBlock`/`storeCRegs` sub-stages): the code cache
  lookup/store protocol, the specialization key tuple, the generation-time
  assertions, and the store stage's accumulate semantics.
-/

/-- Specialization axes of one generated embedding kernel, together with the
instruction-set tier (`avx512 = false` means AVX2).  These are the parameters
of `GenEmbeddingSpMDMLookup::getOrCreate` plus `is8bit` (derived from the
input type), the tier template parameter, and the index element width
(`idx64 = true` means `indxType = int64_t`, else `int32_t`). -/
structure EmbSpec where
  avx512 : Bool
  is8bit : Bool
  blockSize : Nat
  hasWeight : Bool
  positional : Bool
  normalize : Bool
  idx64 : Bool

/-- Runtime arguments and buffers of one generated-kernel invocation.
Buffers are modelled as total functions from element positions; the kernel
only ever reads them at positions it has validated.  For fused 8-bit input a
row consists of `bytes`, a trailing `scale` and a trailing `bias`; for float
input a row is `fdata`. -/
structure EmbArgs where
  outputSize : Int
  indexSize : Int
  dataSize : Int
  bytes : Nat → Nat → Nat
  scale : Nat → ℚ
  bias : Nat → ℚ
  fdata : Nat → Nat → ℚ
  indices : Nat → Int
  lengths : Nat → Int
  weights : Nat → ℚ

/-- Vector width in 32-bit lanes (`InstSetTrait::VLEN`): 16 for AVX512,
8 for AVX2. -/
def vlen (s : EmbSpec) : Nat := if s.avx512 then 16 else 8

/-- Hardware vector register count (`InstSetTrait::NUM_VEC_REG`): 32 for
AVX512, 16 for AVX2. -/
def numVecReg (s : EmbSpec) : Nat := if s.avx512 then 32 else 16

/-- `num_vec_regs_per_block = (block_size + vlen - 1) / vlen`. -/
def numBlocks (s : EmbSpec) : Nat := (s.blockSize + vlen s - 1) / vlen s

/-- `remainder = block_size % vlen`. -/
def remLanes (s : EmbSpec) : Nat := s.blockSize % vlen s

/-- Result of the register-role allocation performed before code emission
(the `--unroll_factor` decrement sequence in `getOrCreate`).  Each role field
holds the hardware register index claimed for it, or `none` when the
configuration does not reserve that role. -/
structure RegAlloc where
  unroll : Nat
  scaleReg : Option Nat
  biasReg : Option Nat
  cvtReg : Option Nat
  wReg : Option Nat
  tempReg : Option Nat
  maskReg : Option Nat
  vlenInvReg : Option Nat

/-- The register-role allocation, mirroring the decrement sequence in the
source: 8-bit input reserves scale, bias and a uint8-to-float conversion
temporary; weighting reserves a weight broadcast register; a nonzero
remainder reserves a remainder temporary (plus a mask register on AVX2);
normalization reserves the reciprocal-of-length register, which on 8-bit
input with a remainder is taken at `unroll_factor + 1`. -/
def allocRegs (avx512 is8bit hasW hasRem norm : Bool) : RegAlloc :=
  let n0 := if avx512 then 32 else 16
  let u1 := if is8bit then n0 - 3 else n0
  let scaleReg := if is8bit then some (n0 - 1) else none
  let biasReg := if is8bit then some (n0 - 2) else none
  let cvtReg := if is8bit then some (n0 - 3) else none
  let u2 := if hasW then u1 - 1 else u1
  let wReg := if hasW then some (u1 - 1) else none
  let u3 := if hasRem then (if avx512 then u2 - 1 else u2 - 2) else u2
  let tempReg := if hasRem then some u3 else none
  let maskReg := if hasRem && !avx512 then some (u3 + 1) else none
  let u4 := if norm then u3 - 1 else u3
  let vlenInvReg :=
    if norm then some (if is8bit && hasRem then u4 + 1 else u4) else none
  ⟨u4, scaleReg, biasReg, cvtReg, wReg, tempReg, maskReg, vlenInvReg⟩

/-- All role registers actually reserved by a configuration. -/
def roleRegs (ra : RegAlloc) : List Nat :=
  [ra.scaleReg, ra.biasReg, ra.cvtReg, ra.wReg, ra.tempReg, ra.maskReg,
   ra.vlenInvReg].filterMap id

/-- The unroll factor (number of vector registers left for output
accumulators) for a specialization. -/
def unrollFactor (s : EmbSpec) : Nat :=
  (allocRegs s.avx512 s.is8bit s.hasWeight (remLanes s != 0) s.normalize).unroll

/-- Contribution of one consumed embedding row to output element `j`, as the
generated inner loop computes it: for 8-bit input the scale and bias are
pre-multiplied by the weight when weighting is enabled, then
`out += bias'; out += byte * scale'`; for float input `out += w * value`
(weighted) or `out += value` (unweighted). -/
def elemContrib (s : EmbSpec) (a : EmbArgs) (w : Option ℚ) (row j : Nat) : ℚ :=
  match w with
  | some wv =>
      if s.is8bit then a.bias row * wv + (a.bytes row j : ℚ) * (a.scale row * wv)
      else wv * a.fdata row j
  | none =>
      if s.is8bit then a.bias row + (a.bytes row j : ℚ) * a.scale row
      else a.fdata row j

/-- The 64-bit register value produced by the per-chunk length load
`mov lengths_R_, dword ptr [lengths]`: `lengths_R_` is a 32-bit register
(`gpz(12).r32()`), and an x86-64 write to a 32-bit register zero-extends the
stored 32-bit value into the full register.  The overrun check multiplies
this zero-extended value. -/
def len32 (a : EmbArgs) (r : Nat) : Int := a.lengths r % 4294967296

/-- The stored 32-bit length read with signed semantics, as the
`cmp dword ptr [lengths], 1` normalization test, the `cvtsi2ss` reciprocal
conversion, and the `dec`/`jl` loop exit interpret the same 32 bits. -/
def lenSigned (a : EmbArgs) (r : Nat) : Int :=
  if len32 a r < 2147483648 then len32 a r else len32 a r - 4294967296

/-- Number of indices the data-index loop consumes for row `r`: `dec` then
`jl` exits on a negative signed 32-bit value, so the body runs
`max(signed length, 0)` times. -/
def lenCount (a : EmbArgs) (r : Nat) : Nat := (lenSigned a r).toNat

/-- The index register value after the load at the top of the data-index
loop: the full value for 64-bit indices (`mov r64, qword ptr`); for 32-bit
indices the `mov r32, dword ptr [indices]` load zero-extends the stored
32-bit value, so the register is never negative. -/
def idxVal (s : EmbSpec) (a : EmbArgs) (p : Nat) : Int :=
  if s.idx64 then a.indices p else a.indices p % 4294967296

/-- Loaded index register value out of the valid embedding-row range:
`idx < 0 || idx >= data_size` (the two conditional jumps to `error` in the
data-index loop), applied to the zero-extension-aware register value. -/
def badIndexAt (s : EmbSpec) (a : EmbArgs) (p : Nat) : Prop :=
  idxVal s a p < 0 ∨ a.dataSize ≤ idxVal s a p

instance (s : EmbSpec) (a : EmbArgs) (p : Nat) : Decidable (badIndexAt s a p) := by
  unfold badIndexAt; infer_instance

/-- Weight argument consumed for the `pos`-th index of a row, relative to a
weight-cursor base. -/
def wOptAt (s : EmbSpec) (a : EmbArgs) (wBase pos : Nat) : Option ℚ :=
  if s.hasWeight then some (a.weights (wBase + pos)) else none

/-- Contribution of the index consumed at cursor offset `pos` to output
element `j`. -/
def segContrib (s : EmbSpec) (a : EmbArgs) (idxBase wBase pos j : Nat) : ℚ :=
  elemContrib s a (wOptAt s a wBase pos) (idxVal s a (idxBase + pos)).toNat j

/-- The data-index loop of one chunk: consume `n` indices starting at cursor
offset `pos`, validating each against `[0, data_size)` (jump to `error`
modelled as `none`), and accumulate each row's contribution into the
accumulator registers covering output elements `[lo, hi)`. -/
def dataLoop (s : EmbSpec) (a : EmbArgs) (idxBase wBase lo hi : Nat) :
    Nat → Nat → (Nat → ℚ) → Option (Nat → ℚ)
  | _pos, 0, acc => some acc
  | pos, n + 1, acc =>
      if badIndexAt s a (idxBase + pos) then none
      else
        dataLoop s a idxBase wBase lo hi (pos + 1) n
          (fun j =>
            if lo ≤ j ∧ j < hi then acc j + segContrib s a idxBase wBase pos j
            else acc j)

/-- Upper element bound of the chunk starting at register `vecIdx` spanning
`cnt` registers: a full register stores `vlen` elements, the final register
is limited to `block_size` by the remainder mask (AVX2 byte mask store /
AVX512 predicated store). -/
def chunkHi (s : EmbSpec) (vecIdx cnt : Nat) : Nat :=
  min ((vecIdx + cnt) * vlen s) s.blockSize

/-- Output elements stored by the chunk `[vecIdx, vecIdx + cnt)`. -/
def chunkElems (s : EmbSpec) (vecIdx cnt : Nat) : List Nat :=
  (List.range (chunkHi s vecIdx cnt - vecIdx * vlen s)).map
    (fun t => vecIdx * vlen s + t)

/-- One chunk of one output row: the out-of-bound check
`indices + lengths[r]*sizeof(idx) > index_end` (jump to `error` modelled as
`none`; the check multiplies the zero-extended 32-bit length `len32`), the
positional-weight cursor reset, then the data-index loop over
zero-initialized accumulators. -/
def processChunk (s : EmbSpec) (a : EmbArgs) (r idxCur wCur vecIdx cnt : Nat) :
    Option (Nat → ℚ) :=
  if (idxCur : Int) + len32 a r > a.indexSize then none
  else
    dataLoop s a idxCur (if s.positional then 0 else wCur) (vecIdx * vlen s)
      (chunkHi s vecIdx cnt) 0 (lenCount a r) (fun _ => 0)

/-- The per-row normalization factor, computed once at the top of the range
loop: the `cmp dword ptr [lengths], 1; jl` test and the `cvtsi2ss`
conversion both read the stored 32 bits with signed semantics, so the factor
is zero when the signed length is below 1, else its reciprocal; one when
normalization is off. -/
def normFactor (s : EmbSpec) (a : EmbArgs) (r : Nat) : ℚ :=
  if s.normalize then
    (if lenSigned a r < 1 then 0 else (lenSigned a r : ℚ)⁻¹)
  else 1

/-- State produced by a run fragment: stores issued so far (flat output
position, value), the index cursor, the weight cursor, and whether the
`error` label was avoided. -/
structure RunOut where
  writes : List (Nat × ℚ)
  idxCur : Nat
  wCur : Nat
  ok : Bool

/-- The chunk loop (`for vec_idx ... vec_idx += unroll_factor`) of one output
row.  After each chunk the accumulators are scaled by the normalization
factor and stored; the index/weight cursors are rewound when more chunks
remain, otherwise left past the row's consumed entries.  `fuel` bounds the
recursion and is instantiated with `numBlocks`. -/
def rowLoop (s : EmbSpec) (a : EmbArgs) (r : Nat) :
    Nat → Nat → Nat → Nat → RunOut
  | 0, _vecIdx, idxCur, wCur => ⟨[], idxCur, wCur, true⟩
  | fuel + 1, vecIdx, idxCur, wCur =>
      if vecIdx < numBlocks s then
        let cnt := min (unrollFactor s) (numBlocks s - vecIdx)
        match processChunk s a r idxCur wCur vecIdx cnt with
        | none => ⟨[], idxCur, wCur, false⟩
        | some acc =>
            let ws := (chunkElems s vecIdx cnt).map
              (fun j => (r * s.blockSize + j, normFactor s a r * acc j))
            let len := lenCount a r
            let nxt :=
              if vecIdx + unrollFactor s < numBlocks s then (idxCur, wCur)
              else (idxCur + len, if s.positional then len else wCur + len)
            let rest := rowLoop s a r fuel (vecIdx + unrollFactor s) nxt.1 nxt.2
            ⟨ws ++ rest.writes, rest.idxCur, rest.wCur, rest.ok⟩
      else ⟨[], idxCur, wCur, true⟩

/-- One output row: the chunk loop started at register 0 with enough fuel for
every chunk. -/
def processRow (s : EmbSpec) (a : EmbArgs) (r idxCur wCur : Nat) : RunOut :=
  rowLoop s a r (numBlocks s) 0 idxCur wCur

/-- The range-index loop: process `n` output rows starting at row `r`,
stopping at the first row that reaches the `error` label. -/
def runRows (s : EmbSpec) (a : EmbArgs) : Nat → Nat → Nat → Nat → RunOut
  | _r, 0, idxCur, wCur => ⟨[], idxCur, wCur, true⟩
  | r, n + 1, idxCur, wCur =>
      let row := processRow s a r idxCur wCur
      if row.ok then
        let rest := runRows s a (r + 1) n row.idxCur row.wCur
        ⟨row.writes ++ rest.writes, rest.idxCur, rest.wCur, rest.ok⟩
      else ⟨row.writes, row.idxCur, row.wCur, false⟩

/-- The generated embedding kernel: runs every output row, then checks that
the index cursor landed exactly at the end of the index buffer
(`cmp indices, index_size; jne error`).  Returns the ordered list of output
stores and the boolean return value. -/
def embKernel (s : EmbSpec) (a : EmbArgs) : List (Nat × ℚ) × Bool :=
  let fin := runRows s a 0 a.outputSize.toNat 0 0
  (fin.writes, fin.ok && decide ((fin.idxCur : Int) = a.indexSize))

/-- Replay a list of stores over the prior contents of the output buffer. -/
def applyWrites (prior : Nat → ℚ) : List (Nat × ℚ) → Nat → ℚ
  | [] => prior
  | w :: rest => applyWrites (fun q => if q = w.1 then w.2 else prior q) rest

/-- Output buffer contents after a kernel invocation on a buffer whose prior
contents are `prior`. -/
def embOut (s : EmbSpec) (a : EmbArgs) (prior : Nat → ℚ) : Nat → ℚ :=
  applyWrites prior (embKernel s a).1

/-- Indices consumed by the rows before row `r` (each row consumes
`lenCount` indices: the signed 32-bit length clamped at zero). -/
def preConsumed (a : EmbArgs) : Nat → Nat
  | 0 => 0
  | r + 1 => preConsumed a r + lenCount a r

/-- Row `r` would read past the supplied index count: the generated
`indices + lengths[r]*sizeof > index_end` check fails.  The check multiplies
the zero-extended 32-bit length, so a negative stored length contributes a
value of at least `2^31`. -/
def rowOverrun (a : EmbArgs) (r : Nat) : Prop :=
  (preConsumed a r : Int) + len32 a r > a.indexSize

instance (a : EmbArgs) (r : Nat) : Decidable (rowOverrun a r) := by
  unfold rowOverrun; infer_instance

/-- Some index-register value consumed by row `r` is out of
`[0, data_size)`. -/
def rowBadIndex (s : EmbSpec) (a : EmbArgs) (r : Nat) : Prop :=
  ∃ k < lenCount a r, badIndexAt s a (preConsumed a r + k)

instance (s : EmbSpec) (a : EmbArgs) (r : Nat) : Decidable (rowBadIndex s a r) := by
  unfold rowBadIndex; infer_instance

/-- Row `r` hits the `error` label. -/
def rowError (s : EmbSpec) (a : EmbArgs) (r : Nat) : Prop :=
  rowOverrun a r ∨ rowBadIndex s a r

instance (s : EmbSpec) (a : EmbArgs) (r : Nat) : Decidable (rowError s a r) := by
  unfold rowError; infer_instance

/-- Some processed output row hits the `error` label. -/
def anyRowError (s : EmbSpec) (a : EmbArgs) : Prop :=
  ∃ r < a.outputSize.toNat, rowError s a r

instance (s : EmbSpec) (a : EmbArgs) : Decidable (anyRowError s a) := by
  unfold anyRowError; infer_instance

/-- Valid inputs: no row error, and the lengths consume exactly the supplied
index count. -/
def validArgs (s : EmbSpec) (a : EmbArgs) : Prop :=
  ¬ anyRowError s a ∧ (preConsumed a a.outputSize.toNat : Int) = a.indexSize

instance (s : EmbSpec) (a : EmbArgs) : Decidable (validArgs s a) := by
  unfold validArgs; infer_instance

/-- Accumulated (pre-store) value of output element `j` of a row whose
consumed indices start at cursor `idxBase` with weight base `wBase`. -/
def cursorRowSum (s : EmbSpec) (a : EmbArgs) (idxBase wBase r j : Nat) : ℚ :=
  ∑ k ∈ Finset.range (lenCount a r), segContrib s a idxBase wBase k j

/-- Accumulated value of output element `j` of row `r` in terms of the
absolute cursor positions: the weight base is the array start in positional
mode, else the sequential cursor. -/
def rowSum (s : EmbSpec) (a : EmbArgs) (r j : Nat) : ℚ :=
  cursorRowSum s a (preConsumed a r)
    (if s.positional then 0 else preConsumed a r) r j

/-- The stores issued for output row `r` on the non-error path. -/
def rowWrites (s : EmbSpec) (a : EmbArgs) (r : Nat) : List (Nat × ℚ) :=
  (List.range s.blockSize).map
    (fun j => (r * s.blockSize + j, normFactor s a r * rowSum s a r j))

/-- Stores issued for `m` consecutive output rows starting at row `r`. -/
def writesFrom (s : EmbSpec) (a : EmbArgs) : Nat → Nat → List (Nat × ℚ)
  | _r, 0 => []
  | r, m + 1 => rowWrites s a r ++ writesFrom s a (r + 1) m

/-- All stores issued by a successful kernel invocation. -/
def allWrites (s : EmbSpec) (a : EmbArgs) : List (Nat × ℚ) :=
  writesFrom s a 0 a.outputSize.toNat

/-- Dequantized value of element `j` of embedding row `row`, as the spec
words it: `byte * scale + bias` for fused 8-bit rows, the raw float for
float rows. -/
def specDequant (s : EmbSpec) (a : EmbArgs) (row j : Nat) : ℚ :=
  if s.is8bit then (a.bytes row j : ℚ) * a.scale row + a.bias row
  else a.fdata row j

/-- Weight applied to the `k`-th index consumed by row `r`: 1 when
unweighted, the weight at the row-relative position in positional mode, else
the next sequentially consumed weight. -/
def specWeightAt (s : EmbSpec) (a : EmbArgs) (r k : Nat) : ℚ :=
  if s.hasWeight then
    a.weights ((if s.positional then 0 else preConsumed a r) + k)
  else 1

/-- Spec-side value of output element `j` of row `r`: the weighted sum of
dequantized rows over the row's consumed indices. -/
def specRowVal (s : EmbSpec) (a : EmbArgs) (r j : Nat) : ℚ :=
  ∑ k ∈ Finset.range (lenCount a r),
    specWeightAt s a r k *
      specDequant s a (idxVal s a (preConsumed a r + k)).toNat j

/-- Weight the claim text assigns to the `k`-th index consumed by row `r`:
always the next sequentially consumed weight, with no positional case.  This
definition follows the claim wording, for comparison against the kernel. -/
def claimSeqWeightAt (s : EmbSpec) (a : EmbArgs) (r k : Nat) : ℚ :=
  if s.hasWeight then a.weights (preConsumed a r + k) else 1

/-- Output value of element `j` of row `r` as the claim states it: the plain
weighted sum with sequentially consumed weights. -/
def claimRowVal (s : EmbSpec) (a : EmbArgs) (r j : Nat) : ℚ :=
  ∑ k ∈ Finset.range (lenCount a r),
    claimSeqWeightAt s a r k *
      specDequant s a (idxVal s a (preConsumed a r + k)).toNat j

/-- Allocated byte size of one input row: `block_size` bytes plus the two
trailing floats for fused 8-bit rows (`fused_block_size`), else `block_size`
floats. -/
def rowAllocBytes (s : EmbSpec) : Nat :=
  if s.is8bit then s.blockSize * 1 + 2 * 4 else s.blockSize * 4

/-- One-past-the-end byte offset (relative to the row base) read by the
input load for vector register `i` of a row: 8-bit loads read `vlen` bytes
unmasked, except that the final register on AVX512 is predicated down to
`remainder` bytes; float loads read `vlen` floats, the final register being
masked down to `remainder` floats on both tiers. -/
def loadByteEnd (s : EmbSpec) (i : Nat) : Nat :=
  if s.is8bit then
    if i = numBlocks s - 1 ∧ remLanes s ≠ 0 ∧ s.avx512 then
      i * vlen s + remLanes s
    else i * vlen s + vlen s
  else
    if i = numBlocks s - 1 ∧ remLanes s ≠ 0 then (i * vlen s + remLanes s) * 4
    else (i * vlen s + vlen s) * 4

/-- The AVX2 remainder mask built on the stack: `-1` dwords for the first
`remainder` lanes, `0` for the rest. -/
def avx2MaskWord (s : EmbSpec) (lane : Nat) : Int :=
  if lane < remLanes s then -1 else 0

/-- The AVX512 remainder predicate register: `(1 << remainder) - 1`. -/
def avx512KMask (s : EmbSpec) : Nat := 2 ^ remLanes s - 1

/-- Whether the remainder mask lets lane `lane` through, per tier. -/
def maskAllows (s : EmbSpec) (lane : Nat) : Bool :=
  if s.avx512 then (avx512KMask s).testBit lane
  else decide (avx2MaskWord s lane ≠ 0)

/-- A nullable JIT function pointer (`none` is a null pointer). -/
abbrev JitPtr := Option Unit

/-- Where the `EmbeddingSpMDM` dispatch entry point transfers control. -/
inductive CallTarget where
  | jitFn (fn : JitPtr)
  | refFallback
deriving DecidableEq

/-- The `EmbeddingSpMDM` dispatch: with AVX512 or AVX2 support it obtains a
function pointer from the generator and invokes it unconditionally; only
without either extension does it take the reference path. -/
def embeddingDispatchTarget (hasAvx512 hasAvx2 : Bool) (generated : JitPtr) :
    CallTarget :=
  if hasAvx512 then .jitFn generated
  else if hasAvx2 then .jitFn generated
  else .refFallback

/-- Blocking parameters of the GEMM micro-kernel (`blocking_params` override
or the `PackingTraits` defaults). -/
structure BlockingParams where
  KCB : Nat
  NCB : Nat
  MR : Nat
  NR : Nat
  NR_MIN : Nat
  ROW_INTERLEAVE : Nat
deriving DecidableEq

/-- The GEMM specialization key tuple type
`std::tuple<bool, int, int, int, int, int, int, int>`, with fields named in
tuple order. -/
structure GemmKernelSig where
  accum : Bool
  mc : Nat
  nc : Nat
  nBlock : Nat
  kBlock : Nat
  mRegBlockSize : Nat
  nRegBlockSize : Nat
  nRegBlockSizeMin : Nat
deriving DecidableEq

/-- The GEMM specialization key built by `getOrCreate`:
`(accum, mc, nc, nBlock, kBlock, mRegBlockSize, nRegBlockSize,
nRegBlockSizeMin)`.  The call's `kc` and the row-interleave factor are not
part of the tuple. -/
def gemmKernelSigOfCall (accum : Bool) (mc nc _kc : Nat) (p : BlockingParams) :
    GemmKernelSig :=
  ⟨accum, mc, nc, p.NCB, p.KCB, p.MR, p.NR, p.NR_MIN⟩

/-- The k-loop increment of the emitted GEMM code
(`a->add(kIdx, row_interleave)`): an emitted-instruction immediate that
depends on an axis outside the key. -/
def gemmKLoopStep (p : BlockingParams) : Nat := p.ROW_INTERLEAVE

/-- The embedding specialization key tuple
(`block_size, has_weight, is_weight_positional, normalize_by_lengths,
prefetch, is8bit`). -/
def embKernelSig (blockSize : Nat) (hasWeight positional normalize : Bool)
    (pref : Nat) (is8bit : Bool) : Nat × Bool × Bool × Bool × Nat × Bool :=
  (blockSize, hasWeight, positional, normalize, pref, is8bit)

/-- The three generation-time assertions of the GEMM generator:
`kc % row_interleave == 0`, `nc % NR_MIN == 0`, and
`maxMRegs * maxNRegs <= 28` with `maxNRegs = NR * ROW_INTERLEAVE * 8 / 512`
(the in-source formula for vector registers holding one B tile). -/
def gemmGeneratorAsserts (kc nc : Nat) (p : BlockingParams) : Prop :=
  kc % p.ROW_INTERLEAVE = 0 ∧ nc % p.NR_MIN = 0 ∧
    p.MR * (p.NR * p.ROW_INTERLEAVE * 8 / 512) ≤ 28

instance (kc nc : Nat) (p : BlockingParams) :
    Decidable (gemmGeneratorAsserts kc nc p) := by
  unfold gemmGeneratorAsserts; infer_instance

/-- GEMM kernel generation: the assertions fire before any code is emitted
(a failed `assert` aborts, modelled as `none`); on success the generated
kernel for the call's key is produced. -/
def gemmGenerate (accum : Bool) (mc nc kc : Nat) (p : BlockingParams) :
    Option GemmKernelSig :=
  if gemmGeneratorAsserts kc nc p then some (gemmKernelSigOfCall accum mc nc kc p)
  else none

/-- The GEMM code cache protocol of `getOrCreate`: look the key up in the
map; on a hit return the stored pointer without generating; on a miss run
the generator — if it fails (assembler error) return a null pointer without
storing, else store the pointer under the key and return it.  The third
component counts generator invocations. -/
def gemmGetOrCreate (cache : GemmKernelSig → Option JitPtr)
    (key : GemmKernelSig) (gen : Unit → JitPtr) :
    JitPtr × (GemmKernelSig → Option JitPtr) × Nat :=
  match cache key with
  | some fn => (fn, cache, 0)
  | none =>
      match gen () with
      | none => (none, cache, 1)
      | some v => (some v, fun k => if k = key then some (some v) else cache k, 1)

/-- Value stored by the GEMM `storeCRegs` stage at destination element
`i*ldc + j*16 + lane`: with the accumulate flag the C register is first
added to the prior memory contents (`vpaddd` with a memory operand), else
the register value is stored directly. -/
def gemmStoreOut (accum : Bool) (ldc : Nat) (CRegs : Nat → Nat → Nat → ℤ)
    (prior : Nat → ℤ) (i j lane : Nat) : ℤ :=
  if accum then CRegs i j lane + prior (i * ldc + j * 16 + lane)
  else CRegs i j lane

/-- Output elements from register `vecIdx` to the end of the row. -/
def tailElems (s : EmbSpec) (vecIdx : Nat) : List Nat :=
  (List.range (s.blockSize - vecIdx * vlen s)).map (fun t => vecIdx * vlen s + t)

/-- Running accumulation of `segContrib` over `n` consumed indices starting
at cursor offset `pos` (recursion-shaped counterpart of `cursorRowSum`). -/
def segSumFrom (s : EmbSpec) (a : EmbArgs) (idxBase wBase : Nat) :
    Nat → Nat → Nat → ℚ
  | _pos, 0, _j => 0
  | pos, n + 1, j =>
      segContrib s a idxBase wBase pos j + segSumFrom s a idxBase wBase (pos + 1) n j

/-- The spec's concrete scenario: `blockSize = 4`, fused 8-bit input, two
embedding rows holding bytes `[1,2,3,4]` and `[5,6,7,8]` with scale 1 and
bias 0, `lengths = [2]`, `indices = [0,1]`, no weights (AVX2 tier, 64-bit
indices). -/
def scenSpec : EmbSpec := ⟨false, true, 4, false, false, false, true⟩

/-- Arguments of the concrete scenario (`bytes r j = 4*r + j + 1`). -/
def scenArgs : EmbArgs :=
  ⟨1, 2, 2, fun r j => 4 * r + j + 1, fun _ => 1, fun _ => 0, fun _ _ => 0,
    fun p => (p : Int), fun _ => 2, fun _ => 0⟩

/-- A positional-weight specialization: float input, `blockSize = 1`,
weighted, positional, 64-bit indices. -/
def posSpec : EmbSpec := ⟨false, false, 1, true, true, false, true⟩

/-- Arguments with two output rows of one index each over a single embedding
row of value 1, with weight array `[2, 3]`. -/
def posArgs : EmbArgs :=
  ⟨2, 2, 1, fun _ _ => 0, fun _ => 1, fun _ => 0, fun _ _ => 1,
    fun _ => 0, fun _ => 1, fun p => if p = 0 then 2 else 3⟩

/-- A length-normalized specialization: float input, `blockSize = 1`,
unweighted, normalized, 64-bit indices. -/
def normSpec : EmbSpec := ⟨false, false, 1, false, false, true, true⟩

/-- Arguments with one output row of two indices over a single embedding row
of value 1. -/
def normArgs : EmbArgs :=
  ⟨1, 2, 1, fun _ _ => 0, fun _ => 1, fun _ => 0, fun _ _ => 1,
    fun _ => 0, fun _ => 2, fun _ => 0⟩

/-- Arguments whose single index equals `data_size` (out of range). -/
def badArgs : EmbArgs :=
  ⟨1, 1, 2, fun _ _ => 0, fun _ => 1, fun _ => 0, fun _ _ => 1,
    fun _ => 2, fun _ => 1, fun _ => 0⟩

/-- A 32-bit-index float specialization: `blockSize = 1`, unweighted,
unnormalized. -/
def neg32Spec : EmbSpec := ⟨false, false, 1, false, false, false, false⟩

/-- Arguments with one output row consuming the single stored 32-bit index
`-2^31`, over an embedding table of `2^31 + 1` rows: the index zero-extends
to `2^31`, inside the table. -/
def neg32Args : EmbArgs :=
  ⟨1, 1, 2147483649, fun _ _ => 0, fun _ => 1, fun _ => 0, fun _ _ => 1,
    fun _ => -2147483648, fun _ => 1, fun _ => 0⟩

/-- A length-normalized float specialization with 64-bit indices, for the
negative-length behavior. -/
def negLenSpec : EmbSpec := ⟨false, false, 1, false, false, true, true⟩

/-- Arguments with one output row whose stored 32-bit length is `-1` and no
supplied indices. -/
def negLenArgs : EmbArgs :=
  ⟨1, 0, 1, fun _ _ => 0, fun _ => 1, fun _ => 0, fun _ _ => 1,
    fun _ => 0, fun _ => -1, fun _ => 0⟩

/-- Representative AVX512 blocking parameters
(`KCB, NCB, MR, NR, NR_MIN, ROW_INTERLEAVE`). -/
def paramsA : BlockingParams := ⟨256, 64, 14, 16, 16, 4⟩

/-- Blocking parameters differing from `paramsA` only in the row-interleave
factor. -/
def paramsB : BlockingParams := ⟨256, 64, 14, 16, 16, 2⟩

lemma allocRegs_unroll_pos :
    ∀ b1 b2 b3 b4 b5 : Bool, 1 ≤ (allocRegs b1 b2 b3 b4 b5).unroll := by decide

lemma unrollFactor_pos (s : EmbSpec) : 1 ≤ unrollFactor s :=
  allocRegs_unroll_pos _ _ _ _ _

lemma vlen_pos (s : EmbSpec) : 0 < vlen s := by
  cases h : s.avx512 <;> simp [vlen, h]

lemma blockSize_le_numBlocks_mul (s : EmbSpec) :
    s.blockSize ≤ numBlocks s * vlen s := by
  cases h : s.avx512 <;> simp [numBlocks, vlen, h] <;> omega

lemma numBlocks_pred_mul_lt (s : EmbSpec) (hbs : 0 < s.blockSize) :
    (numBlocks s - 1) * vlen s < s.blockSize := by
  cases h : s.avx512 <;> simp [numBlocks, vlen, h] <;> omega

lemma numBlocks_pos (s : EmbSpec) (hbs : 0 < s.blockSize) :
    0 < numBlocks s := by
  cases h : s.avx512 <;> simp [numBlocks, vlen, h] <;> omega

lemma blockSize_le_of_numBlocks_le (s : EmbSpec) (i : Nat)
    (hi : numBlocks s ≤ i) : s.blockSize ≤ i * vlen s :=
  le_trans (blockSize_le_numBlocks_mul s)
    (Nat.mul_le_mul_right _ hi)

lemma applyWrites_append (prior : Nat → ℚ) (l1 l2 : List (Nat × ℚ)) :
    applyWrites prior (l1 ++ l2) = applyWrites (applyWrites prior l1) l2 := by
  induction l1 generalizing prior with
  | nil => simp [applyWrites]
  | cons w t ih => simp [applyWrites, ih]

lemma applyWrites_not_mem (prior : Nat → ℚ) (l : List (Nat × ℚ)) (p : Nat)
    (hp : p ∉ l.map Prod.fst) : applyWrites prior l p = prior p := by
  induction l generalizing prior with
  | nil => simp [applyWrites]
  | cons w t ih =>
      simp only [List.map_cons, List.mem_cons] at hp
      push_neg at hp
      simp only [applyWrites, ih _ hp.2, if_neg hp.1]

lemma applyWrites_agree (prior1 prior2 : Nat → ℚ) (l : List (Nat × ℚ))
    (p : Nat) (h : prior1 p = prior2 p) :
    applyWrites prior1 l p = applyWrites prior2 l p := by
  induction l generalizing prior1 prior2 with
  | nil => simpa [applyWrites] using h
  | cons w t ih =>
      simp only [applyWrites]
      apply ih
      by_cases hq : p = w.1 <;> simp [hq, h]

lemma applyWrites_mem_indep (prior1 prior2 : Nat → ℚ) (l : List (Nat × ℚ))
    (p : Nat) (hp : p ∈ l.map Prod.fst) :
    applyWrites prior1 l p = applyWrites prior2 l p := by
  induction l generalizing prior1 prior2 with
  | nil => simp at hp
  | cons w t ih =>
      simp only [List.map_cons, List.mem_cons] at hp
      by_cases hq : p = w.1
      · simp only [applyWrites]
        apply applyWrites_agree
        simp [hq]
      · rcases hp with hp | hp
        · exact absurd hp hq
        · simp only [applyWrites]
          exact ih _ _ hp

lemma applyWrites_map_range (m : Nat) (g : Nat → ℚ) (base : Nat) :
    ∀ (prior : Nat → ℚ) (j : Nat), j < m →
      applyWrites prior ((List.range m).map (fun t => (base + t, g t)))
        (base + j) = g j := by
  induction m with
  | zero => intro prior j hj; omega
  | succ m ih =>
      intro prior j hj
      rw [List.range_succ, List.map_append, applyWrites_append]
      rcases Nat.lt_or_ge j m with hlt | hge
      · have hne : base + j ≠ base + m := by omega
        simp only [List.map_cons, List.map_nil, applyWrites, if_neg hne]
        exact ih _ j hlt
      · have hj' : j = m := by omega
        subst hj'
        simp only [List.map_cons, List.map_nil, applyWrites]
        have : (base + j ∉ ((List.range j).map (fun t => (base + t, g t))).map
            Prod.fst) := by
          simp only [List.map_map, List.mem_map, Function.comp]
          rintro ⟨t, ht, heq⟩
          simp only [List.mem_range] at ht
          omega
        rw [applyWrites_not_mem _ _ _ this]
        simp

lemma segSumFrom_eq (s : EmbSpec) (a : EmbArgs) (idxBase wBase : Nat) :
    ∀ (n pos j : Nat),
      segSumFrom s a idxBase wBase pos n j =
        ∑ k ∈ Finset.range n, segContrib s a idxBase wBase (pos + k) j := by
  intro n
  induction n with
  | zero => intro pos j; simp [segSumFrom]
  | succ n ih =>
      intro pos j
      rw [segSumFrom, ih (pos + 1) j]
      simp only [Finset.sum_range_succ', Nat.add_zero]
      rw [add_comm]
      congr 1
      exact Finset.sum_congr rfl
        (fun k _ => by rw [show pos + 1 + k = pos + (k + 1) from by omega])

lemma dataLoop_ok (s : EmbSpec) (a : EmbArgs) (idxBase wBase lo hi : Nat) :
    ∀ (n pos : Nat) (acc : Nat → ℚ),
      (∀ k < n, ¬ badIndexAt s a (idxBase + (pos + k))) →
      dataLoop s a idxBase wBase lo hi pos n acc =
        some (fun j =>
          if lo ≤ j ∧ j < hi then
            acc j + segSumFrom s a idxBase wBase pos n j
          else acc j) := by
  intro n
  induction n with
  | zero =>
      intro pos acc _
      rw [dataLoop]
      congr 1
      funext j
      by_cases hj : lo ≤ j ∧ j < hi <;> simp [hj, segSumFrom]
  | succ n ih =>
      intro pos acc hgood
      have h0 : ¬ badIndexAt s a (idxBase + pos) := by
        have := hgood 0 (Nat.succ_pos n)
        simpa using this
      rw [dataLoop, if_neg h0]
      rw [ih (pos + 1) _ ?_]
      · congr 1
        funext j
        by_cases hj : lo ≤ j ∧ j < hi
        · simp only [hj, and_self, if_true, segSumFrom]
          ring
        · simp [hj]
      · intro k hk
        have := hgood (k + 1) (by omega)
        have he : pos + (k + 1) = pos + 1 + k := by omega
        rwa [he] at this

lemma dataLoop_err (s : EmbSpec) (a : EmbArgs) (idxBase wBase lo hi : Nat) :
    ∀ (n pos : Nat) (acc : Nat → ℚ),
      (∃ k < n, badIndexAt s a (idxBase + (pos + k))) →
      dataLoop s a idxBase wBase lo hi pos n acc = none := by
  intro n
  induction n with
  | zero =>
      rintro pos acc ⟨k, hk, _⟩
      omega
  | succ n ih =>
      rintro pos acc ⟨k, hk, hbad⟩
      by_cases h0 : badIndexAt s a (idxBase + pos)
      · rw [dataLoop, if_pos h0]
      · rw [dataLoop, if_neg h0]
        apply ih
        rcases Nat.eq_zero_or_pos k with rfl | hkpos
        · exact absurd (by simpa using hbad) h0
        · refine ⟨k - 1, by omega, ?_⟩
          have he : pos + 1 + (k - 1) = pos + k := by omega
          rw [he]
          exact hbad

lemma cursorRowSum_eq_segSumFrom (s : EmbSpec) (a : EmbArgs)
    (idxBase wBase r j : Nat) :
    cursorRowSum s a idxBase wBase r j =
      segSumFrom s a idxBase wBase 0 (lenCount a r) j := by
  rw [segSumFrom_eq, cursorRowSum]
  exact Finset.sum_congr rfl (fun k _ => by rw [Nat.zero_add])

lemma processChunk_ok (s : EmbSpec) (a : EmbArgs) (r idxCur wCur vecIdx cnt : Nat)
    (hov : ¬ ((idxCur : Int) + len32 a r > a.indexSize))
    (hgood : ∀ k < lenCount a r, ¬ badIndexAt s a (idxCur + k)) :
    processChunk s a r idxCur wCur vecIdx cnt =
      some (fun j =>
        if vecIdx * vlen s ≤ j ∧ j < chunkHi s vecIdx cnt then
          cursorRowSum s a idxCur (if s.positional then 0 else wCur) r j
        else 0) := by
  rw [processChunk, if_neg hov]
  rw [dataLoop_ok s a idxCur _ _ _ _ 0 _ (by intro k hk; simpa using hgood k hk)]
  congr 1
  funext j
  by_cases hj : vecIdx * vlen s ≤ j ∧ j < chunkHi s vecIdx cnt <;>
    simp [hj, cursorRowSum_eq_segSumFrom]

lemma processChunk_err (s : EmbSpec) (a : EmbArgs) (r idxCur wCur vecIdx cnt : Nat)
    (herr : ((idxCur : Int) + len32 a r > a.indexSize) ∨
      ∃ k < lenCount a r, badIndexAt s a (idxCur + k)) :
    processChunk s a r idxCur wCur vecIdx cnt = none := by
  rcases herr with hov | hbad
  · rw [processChunk, if_pos hov]
  · by_cases hov : (idxCur : Int) + len32 a r > a.indexSize
    · rw [processChunk, if_pos hov]
    · rw [processChunk, if_neg hov]
      apply dataLoop_err
      obtain ⟨k, hk, hb⟩ := hbad
      exact ⟨k, hk, by simpa using hb⟩

lemma range_map_split (base x y : Nat) :
    (List.range (x + y)).map (fun t => base + t) =
      (List.range x).map (fun t => base + t) ++
        (List.range y).map (fun t => base + x + t) := by
  rw [List.range_add, List.map_append, List.map_map]
  congr 1
  apply List.map_congr_left
  intro t _
  simp only [Function.comp_apply]
  omega

lemma blockSize_pos_of_lt_numBlocks (s : EmbSpec) (vecIdx : Nat)
    (hv : vecIdx < numBlocks s) : 0 < s.blockSize := by
  cases h : s.avx512 <;> (rw [numBlocks] at hv; simp [vlen, h] at hv) <;> omega

lemma tailElems_nil (s : EmbSpec) (w : Nat) (hw : numBlocks s ≤ w) :
    tailElems s w = [] := by
  have h1 := blockSize_le_of_numBlocks_le s w hw
  rw [tailElems, Nat.sub_eq_zero_of_le h1, List.range_zero, List.map_nil]

lemma tailElems_split (s : EmbSpec) (vecIdx u : Nat) (_hu : 1 ≤ u)
    (hv : vecIdx < numBlocks s) :
    tailElems s vecIdx =
      chunkElems s vecIdx (min u (numBlocks s - vecIdx)) ++
        tailElems s (vecIdx + u) := by
  have hbs : 0 < s.blockSize := blockSize_pos_of_lt_numBlocks s vecIdx hv
  have hble := blockSize_le_numBlocks_mul s
  have hpred := numBlocks_pred_mul_lt s hbs
  have hmul : (vecIdx + u) * vlen s = vecIdx * vlen s + u * vlen s :=
    Nat.add_mul _ _ _
  rcases Nat.lt_or_ge (vecIdx + u) (numBlocks s) with hlt | hge
  · have hcnt : min u (numBlocks s - vecIdx) = u := by omega
    have hle2 : (vecIdx + u) * vlen s ≤ s.blockSize :=
      le_trans
        (Nat.mul_le_mul_right _ (by omega : vecIdx + u ≤ numBlocks s - 1))
        (le_of_lt hpred)
    have hhi : chunkHi s vecIdx u = (vecIdx + u) * vlen s := by
      rw [chunkHi]
      exact Nat.min_eq_left hle2
    have harg : chunkHi s vecIdx u - vecIdx * vlen s = u * vlen s := by
      rw [hhi]
      omega
    have hsplit : s.blockSize - vecIdx * vlen s =
        u * vlen s + (s.blockSize - (vecIdx + u) * vlen s) := by omega
    rw [hcnt, chunkElems, harg, tailElems, tailElems, hsplit, range_map_split]
    congr 1
    apply List.map_congr_left
    intro t _
    omega
  · have htail : tailElems s (vecIdx + u) = [] :=
      tailElems_nil s (vecIdx + u) (by omega)
    have hcnt : vecIdx + min u (numBlocks s - vecIdx) = numBlocks s := by omega
    have hhi : chunkHi s vecIdx (min u (numBlocks s - vecIdx)) = s.blockSize := by
      rw [chunkHi, hcnt]
      exact Nat.min_eq_right hble
    have harg : chunkHi s vecIdx (min u (numBlocks s - vecIdx)) -
        vecIdx * vlen s = s.blockSize - vecIdx * vlen s := by
      rw [hhi]
    rw [htail, List.append_nil, chunkElems, harg, tailElems]

lemma mem_chunkElems (s : EmbSpec) (vecIdx cnt j : Nat)
    (hj : j ∈ chunkElems s vecIdx cnt) :
    vecIdx * vlen s ≤ j ∧ j < chunkHi s vecIdx cnt := by
  rw [chunkElems] at hj
  obtain ⟨t, ht, rfl⟩ := List.mem_map.1 hj
  rw [List.mem_range] at ht
  omega

lemma rowLoop_past (s : EmbSpec) (a : EmbArgs) (r : Nat)
    (fuel vecIdx idxCur wCur : Nat) (h : numBlocks s ≤ vecIdx) :
    rowLoop s a r fuel vecIdx idxCur wCur = ⟨[], idxCur, wCur, true⟩ := by
  cases fuel with
  | zero => rw [rowLoop]
  | succ f => rw [rowLoop, if_neg (by omega)]

lemma rowLoop_ok (s : EmbSpec) (a : EmbArgs) (r idxCur wCur : Nat)
    (hov : ¬ ((idxCur : Int) + len32 a r > a.indexSize))
    (hgood : ∀ k < lenCount a r, ¬ badIndexAt s a (idxCur + k)) :
    ∀ (fuel vecIdx : Nat), numBlocks s ≤ vecIdx + fuel →
      vecIdx < numBlocks s →
      rowLoop s a r fuel vecIdx idxCur wCur =
        ⟨(tailElems s vecIdx).map (fun j => (r * s.blockSize + j,
            normFactor s a r *
              cursorRowSum s a idxCur (if s.positional then 0 else wCur) r j)),
          idxCur + lenCount a r,
          if s.positional then lenCount a r
            else wCur + lenCount a r,
          true⟩ := by
  intro fuel
  induction fuel with
  | zero => intro vecIdx hfuel hvec; omega
  | succ fuel ih =>
      intro vecIdx hfuel hvec
      have hu := unrollFactor_pos s
      simp only [rowLoop]
      rw [if_pos hvec, processChunk_ok s a r idxCur wCur _ _ hov hgood]
      dsimp only
      have hmemw : (chunkElems s vecIdx (min (unrollFactor s) (numBlocks s - vecIdx))).map
            (fun j => (r * s.blockSize + j, normFactor s a r *
              if vecIdx * vlen s ≤ j ∧
                  j < chunkHi s vecIdx (min (unrollFactor s) (numBlocks s - vecIdx)) then
                cursorRowSum s a idxCur (if s.positional then 0 else wCur) r j
              else 0)) =
          (chunkElems s vecIdx (min (unrollFactor s) (numBlocks s - vecIdx))).map
            (fun j => (r * s.blockSize + j, normFactor s a r *
              cursorRowSum s a idxCur (if s.positional then 0 else wCur) r j)) := by
        apply List.map_congr_left
        intro j hj
        rw [if_pos (mem_chunkElems s _ _ j hj)]
      rcases Nat.lt_or_ge (vecIdx + unrollFactor s) (numBlocks s) with hlt | hge
      · rw [if_pos hlt]
        dsimp only
        rw [hmemw, ih (vecIdx + unrollFactor s) (by omega) hlt,
          tailElems_split s vecIdx (unrollFactor s) hu hvec, List.map_append]
      · rw [if_neg (show ¬ (vecIdx + unrollFactor s < numBlocks s) by omega)]
        dsimp only
        rw [hmemw, rowLoop_past s a r fuel (vecIdx + unrollFactor s) _ _ hge,
          tailElems_split s vecIdx (unrollFactor s) hu hvec, List.map_append,
          tailElems_nil s (vecIdx + unrollFactor s) hge, List.map_nil,
          List.append_nil]

lemma rowLoop_err (s : EmbSpec) (a : EmbArgs) (r idxCur wCur : Nat)
    (herr : ((idxCur : Int) + len32 a r > a.indexSize) ∨
      ∃ k < lenCount a r, badIndexAt s a (idxCur + k))
    (fuel vecIdx : Nat) (hf : 0 < fuel) (hv : vecIdx < numBlocks s) :
    rowLoop s a r fuel vecIdx idxCur wCur = ⟨[], idxCur, wCur, false⟩ := by
  obtain ⟨f, rfl⟩ : ∃ f, fuel = f + 1 := ⟨fuel - 1, by omega⟩
  simp only [rowLoop]
  rw [if_pos hv, processChunk_err s a r idxCur wCur _ _ herr]

lemma tailElems_zero (s : EmbSpec) : tailElems s 0 = List.range s.blockSize := by
  simp [tailElems]

lemma cursorRowSum_eq_rowSum (s : EmbSpec) (a : EmbArgs) (r wCur : Nat)
    (hw : s.positional = false → wCur = preConsumed a r) :
    cursorRowSum s a (preConsumed a r) (if s.positional then 0 else wCur) r =
      rowSum s a r := by
  funext j
  cases hp : s.positional
  · rw [hw hp]
    simp [rowSum, hp]
  · simp [rowSum, hp]

lemma processRow_ok (s : EmbSpec) (a : EmbArgs) (hbs : 0 < s.blockSize)
    (r wCur : Nat) (hre : ¬ rowError s a r)
    (hw : s.positional = false → wCur = preConsumed a r) :
    processRow s a r (preConsumed a r) wCur =
      ⟨rowWrites s a r, preConsumed a (r + 1),
        if s.positional then lenCount a r
          else wCur + lenCount a r, true⟩ := by
  rw [rowError] at hre
  push_neg at hre
  obtain ⟨hov, hbad⟩ := hre
  rw [rowOverrun] at hov
  rw [rowBadIndex] at hbad
  push_neg at hbad
  rw [processRow,
    rowLoop_ok s a r (preConsumed a r) wCur hov hbad (numBlocks s) 0
      (by omega) (numBlocks_pos s hbs)]
  rw [tailElems_zero, cursorRowSum_eq_rowSum s a r wCur hw]
  rw [show preConsumed a r + lenCount a r = preConsumed a (r + 1)
    from rfl]
  rfl

lemma processRow_err (s : EmbSpec) (a : EmbArgs) (hbs : 0 < s.blockSize)
    (r idxCur wCur : Nat)
    (herr : ((idxCur : Int) + len32 a r > a.indexSize) ∨
      ∃ k < lenCount a r, badIndexAt s a (idxCur + k)) :
    processRow s a r idxCur wCur = ⟨[], idxCur, wCur, false⟩ := by
  rw [processRow,
    rowLoop_err s a r idxCur wCur herr (numBlocks s) 0
      (numBlocks_pos s hbs) (numBlocks_pos s hbs)]

lemma runRows_ok (s : EmbSpec) (a : EmbArgs) (hbs : 0 < s.blockSize) :
    ∀ (m r wCur : Nat),
      (∀ i, r ≤ i → i < r + m → ¬ rowError s a i) →
      (s.positional = false → wCur = preConsumed a r) →
      (runRows s a r m (preConsumed a r) wCur).writes = writesFrom s a r m ∧
        (runRows s a r m (preConsumed a r) wCur).idxCur =
          preConsumed a (r + m) ∧
        (runRows s a r m (preConsumed a r) wCur).ok = true ∧
        (s.positional = false →
          (runRows s a r m (preConsumed a r) wCur).wCur =
            preConsumed a (r + m)) := by
  intro m
  induction m with
  | zero =>
      intro r wCur _hclean hw
      rw [runRows]
      exact ⟨by rw [writesFrom], rfl, rfl, fun hp => hw hp⟩
  | succ m ih =>
      intro r wCur hclean hw
      have hre : ¬ rowError s a r := hclean r le_rfl (by omega)
      have hrow := processRow_ok s a hbs r wCur hre hw
      have hw2 : s.positional = false →
          (if s.positional then lenCount a r
            else wCur + lenCount a r) = preConsumed a (r + 1) := by
        intro hp
        rw [hp]
        simp only [Bool.false_eq_true, if_false]
        rw [hw hp]
        rfl
      have ihr := ih (r + 1)
        (if s.positional then lenCount a r
          else wCur + lenCount a r)
        (fun i h1 h2 => hclean i (by omega) (by omega)) hw2
      have hradd : r + 1 + m = r + (m + 1) := by omega
      rw [hradd] at ihr
      have hstep : runRows s a r (m + 1) (preConsumed a r) wCur =
          ⟨rowWrites s a r ++
              (runRows s a (r + 1) m (preConsumed a (r + 1))
                (if s.positional then lenCount a r
                  else wCur + lenCount a r)).writes,
            (runRows s a (r + 1) m (preConsumed a (r + 1))
              (if s.positional then lenCount a r
                else wCur + lenCount a r)).idxCur,
            (runRows s a (r + 1) m (preConsumed a (r + 1))
              (if s.positional then lenCount a r
                else wCur + lenCount a r)).wCur,
            (runRows s a (r + 1) m (preConsumed a (r + 1))
              (if s.positional then lenCount a r
                else wCur + lenCount a r)).ok⟩ := by
        rw [runRows, hrow]
        rfl
      rw [hstep, writesFrom]
      exact ⟨by rw [ihr.1], ihr.2.1, ihr.2.2.1, fun hp => ihr.2.2.2 hp⟩

lemma runRows_err (s : EmbSpec) (a : EmbArgs) (hbs : 0 < s.blockSize) :
    ∀ (m i r wCur : Nat), i < m →
      (∀ i2, r ≤ i2 → i2 < r + i → ¬ rowError s a i2) →
      rowError s a (r + i) →
      (s.positional = false → wCur = preConsumed a r) →
      (runRows s a r m (preConsumed a r) wCur).ok = false ∧
        (runRows s a r m (preConsumed a r) wCur).writes =
          writesFrom s a r i := by
  intro m
  induction m with
  | zero => intro i r wCur hi; omega
  | succ m ih =>
      intro i r wCur hi hclean herr hw
      rcases Nat.eq_zero_or_pos i with rfl | hipos
      · rw [Nat.add_zero] at herr
        rw [rowError, rowOverrun, rowBadIndex] at herr
        have herr2 : ((preConsumed a r : Int) + len32 a r > a.indexSize) ∨
            ∃ k < lenCount a r,
              badIndexAt s a (preConsumed a r + k) := herr
        have hstep : runRows s a r (m + 1) (preConsumed a r) wCur =
            ⟨[], preConsumed a r, wCur, false⟩ := by
          rw [runRows, processRow_err s a hbs r _ wCur herr2]
          rfl
        rw [hstep]
        exact ⟨rfl, by rw [writesFrom]⟩
      · have hre : ¬ rowError s a r := hclean r le_rfl (by omega)
        have hrow := processRow_ok s a hbs r wCur hre hw
        have hw2 : s.positional = false →
            (if s.positional then lenCount a r
              else wCur + lenCount a r) = preConsumed a (r + 1) := by
          intro hp
          rw [hp]
          simp only [Bool.false_eq_true, if_false]
          rw [hw hp]
          rfl
        have ihe := ih (i - 1) (r + 1)
          (if s.positional then lenCount a r
            else wCur + lenCount a r)
          (by omega)
          (fun i2 h1 h2 => hclean i2 (by omega) (by omega))
          (by rw [show r + 1 + (i - 1) = r + i from by omega]; exact herr)
          hw2
        have hstep : runRows s a r (m + 1) (preConsumed a r) wCur =
            ⟨rowWrites s a r ++
                (runRows s a (r + 1) m (preConsumed a (r + 1))
                  (if s.positional then lenCount a r
                    else wCur + lenCount a r)).writes,
              (runRows s a (r + 1) m (preConsumed a (r + 1))
                (if s.positional then lenCount a r
                  else wCur + lenCount a r)).idxCur,
              (runRows s a (r + 1) m (preConsumed a (r + 1))
                (if s.positional then lenCount a r
                  else wCur + lenCount a r)).wCur,
              (runRows s a (r + 1) m (preConsumed a (r + 1))
                (if s.positional then lenCount a r
                  else wCur + lenCount a r)).ok⟩ := by
          rw [runRows, hrow]
          rfl
        rw [hstep]
        refine ⟨ihe.1, ?_⟩
        dsimp only
        rw [ihe.2]
        have hi1 : i - 1 + 1 = i := by omega
        conv_rhs => rw [← hi1, writesFrom]

lemma embKernel_valid (s : EmbSpec) (a : EmbArgs) (hbs : 0 < s.blockSize)
    (hv : validArgs s a) : embKernel s a = (allWrites s a, true) := by
  obtain ⟨hne, hsz⟩ := hv
  rw [anyRowError] at hne
  push_neg at hne
  have h := runRows_ok s a hbs a.outputSize.toNat 0 0
    (fun i _h0 hi => hne i (by omega)) (fun _ => rfl)
  rw [show preConsumed a 0 = 0 from rfl] at h
  obtain ⟨h1, h2, h3, _⟩ := h
  rw [show (0 + a.outputSize.toNat) = a.outputSize.toNat from by omega] at h2
  simp [embKernel, h1, h2, h3, allWrites, hsz]

lemma embKernel_not_valid (s : EmbSpec) (a : EmbArgs) (hbs : 0 < s.blockSize)
    (hnv : ¬ validArgs s a) : (embKernel s a).2 = false := by
  rw [validArgs] at hnv
  by_cases hA : anyRowError s a
  · obtain ⟨r, hr, herr⟩ := hA
    have hex : ∃ r2, rowError s a r2 := ⟨r, herr⟩
    have hr0 : Nat.find hex ≤ r := Nat.find_min' hex herr
    have hok := runRows_err s a hbs a.outputSize.toNat (Nat.find hex) 0 0
      (by omega)
      (fun i2 _h1 h2 => Nat.find_min hex (by omega))
      (by rw [Nat.zero_add]; exact Nat.find_spec hex)
      (fun _ => rfl)
    rw [show preConsumed a 0 = 0 from rfl] at hok
    simp [embKernel, hok.1]
  · have hne : ¬ anyRowError s a := hA
    have hsz : (preConsumed a a.outputSize.toNat : Int) ≠ a.indexSize := by
      intro heq
      exact hnv ⟨hne, heq⟩
    rw [anyRowError] at hne
    push_neg at hne
    have h := runRows_ok s a hbs a.outputSize.toNat 0 0
      (fun i _h0 hi => hne i (by omega)) (fun _ => rfl)
    rw [show preConsumed a 0 = 0 from rfl] at h
    obtain ⟨_h1, h2, h3, _⟩ := h
    rw [show (0 + a.outputSize.toNat) = a.outputSize.toNat from by omega] at h2
    simp [embKernel, h2, h3, hsz]

lemma embKernel_false_iff (s : EmbSpec) (a : EmbArgs) (hbs : 0 < s.blockSize) :
    (embKernel s a).2 = false ↔
      (anyRowError s a ∨
        (preConsumed a a.outputSize.toNat : Int) ≠ a.indexSize) := by
  constructor
  · intro hf
    by_contra hcon
    push_neg at hcon
    have hv : validArgs s a := ⟨hcon.1, hcon.2⟩
    rw [embKernel_valid s a hbs hv] at hf
    simp at hf
  · intro h
    apply embKernel_not_valid s a hbs
    rw [validArgs]
    rcases h with h | h
    · intro hc
      exact hc.1 h
    · intro hc
      exact h hc.2

lemma lt_preConsumed_mem (a : EmbArgs) :
    ∀ (n p : Nat), p < preConsumed a n →
      ∃ r < n, ∃ k < lenCount a r, p = preConsumed a r + k := by
  intro n
  induction n with
  | zero =>
      intro p hp
      rw [preConsumed] at hp
      omega
  | succ n ih =>
      intro p hp
      rw [preConsumed] at hp
      rcases Nat.lt_or_ge p (preConsumed a n) with h | h
      · obtain ⟨r, hr, hk⟩ := ih p h
        exact ⟨r, by omega, hk⟩
      · exact ⟨n, by omega, p - preConsumed a n, by omega, by omega⟩

lemma map_fst_rowWrites (s : EmbSpec) (a : EmbArgs) (r : Nat) :
    (rowWrites s a r).map Prod.fst =
      (List.range s.blockSize).map (fun j => r * s.blockSize + j) := by
  rw [rowWrites, List.map_map]
  rfl

lemma mem_writesFrom_fst (s : EmbSpec) (a : EmbArgs) :
    ∀ (m r0 p : Nat), p ∈ (writesFrom s a r0 m).map Prod.fst →
      ∃ r', r0 ≤ r' ∧ r' < r0 + m ∧
        ∃ j' < s.blockSize, p = r' * s.blockSize + j' := by
  intro m
  induction m with
  | zero =>
      intro r0 p hp
      rw [writesFrom] at hp
      simp at hp
  | succ m ih =>
      intro r0 p hp
      rw [writesFrom, List.map_append, List.mem_append] at hp
      rcases hp with hp | hp
      · rw [map_fst_rowWrites] at hp
        obtain ⟨j, hj, rfl⟩ := List.mem_map.1 hp
        rw [List.mem_range] at hj
        exact ⟨r0, le_rfl, by omega, j, hj, rfl⟩
      · obtain ⟨r', h1, h2, hj⟩ := ih (r0 + 1) p hp
        exact ⟨r', by omega, by omega, hj⟩

lemma row_encode_lt (bs r j r2 : Nat) (hj : j < bs) (hr : r < r2) :
    r * bs + j < r2 * bs := by
  have h1 : (r + 1) * bs ≤ r2 * bs := Nat.mul_le_mul_right bs (by omega)
  have h2 : (r + 1) * bs = r * bs + bs := by ring
  omega

lemma not_mem_writesFrom_fst_lt (s : EmbSpec) (a : EmbArgs) (m r0 p : Nat)
    (hp : p < r0 * s.blockSize) :
    p ∉ (writesFrom s a r0 m).map Prod.fst := by
  intro hmem
  obtain ⟨r', h1, _h2, j', _hj', rfl⟩ := mem_writesFrom_fst s a m r0 _ hmem
  have := Nat.mul_le_mul_right s.blockSize h1
  omega

lemma applyWrites_writesFrom (s : EmbSpec) (a : EmbArgs) :
    ∀ (m r0 : Nat) (prior : Nat → ℚ) (r j : Nat),
      r0 ≤ r → r < r0 + m → j < s.blockSize →
      applyWrites prior (writesFrom s a r0 m) (r * s.blockSize + j) =
        normFactor s a r * rowSum s a r j := by
  intro m
  induction m with
  | zero => intro r0 prior r j h1 h2 _h3; omega
  | succ m ih =>
      intro r0 prior r j h1 h2 h3
      rw [writesFrom, applyWrites_append]
      rcases Nat.eq_or_lt_of_le h1 with rfl | hlt
      · rw [applyWrites_not_mem _ _ _ (not_mem_writesFrom_fst_lt s a m (r0 + 1) _
          (row_encode_lt s.blockSize r0 j (r0 + 1) h3 (by omega)))]
        rw [rowWrites]
        exact applyWrites_map_range s.blockSize _ (r0 * s.blockSize) prior j h3
      · exact ih (r0 + 1) _ r j (by omega) (by omega) h3

lemma count_map_fst_rowWrites (s : EmbSpec) (a : EmbArgs) (r r2 j : Nat)
    (hj : j < s.blockSize) :
    ((rowWrites s a r2).map Prod.fst).count (r * s.blockSize + j) =
      if r2 = r then 1 else 0 := by
  rw [map_fst_rowWrites]
  by_cases h : r2 = r
  · subst h
    rw [if_pos rfl]
    have hinj : Function.Injective (fun j2 => r2 * s.blockSize + j2) := by
      intro x y hxy
      simpa using hxy
    rw [List.count_map_of_injective _ _ hinj j]
    exact List.count_eq_one_of_mem (List.nodup_range _) (List.mem_range.2 hj)
  · rw [if_neg h, List.count_eq_zero]
    intro hmem
    obtain ⟨j2, hj2, heq⟩ := List.mem_map.1 hmem
    rw [List.mem_range] at hj2
    rcases Nat.lt_or_ge r2 r with hlt | hge
    · have := row_encode_lt s.blockSize r2 j2 r hj2 hlt
      omega
    · have hgt : r < r2 := by omega
      have := row_encode_lt s.blockSize r j r2 hj hgt
      omega

lemma count_writesFrom (s : EmbSpec) (a : EmbArgs) :
    ∀ (m r0 r j : Nat), r0 ≤ r → r < r0 + m → j < s.blockSize →
      ((writesFrom s a r0 m).map Prod.fst).count (r * s.blockSize + j) = 1 := by
  intro m
  induction m with
  | zero => intro r0 r j h1 h2 _h3; omega
  | succ m ih =>
      intro r0 r j h1 h2 h3
      rw [writesFrom, List.map_append, List.count_append,
        count_map_fst_rowWrites s a r r0 j h3]
      rcases Nat.eq_or_lt_of_le h1 with rfl | hlt
      · rw [if_pos rfl]
        have hz : ((writesFrom s a (r0 + 1) m).map Prod.fst).count
            (r0 * s.blockSize + j) = 0 := by
          rw [List.count_eq_zero]
          exact not_mem_writesFrom_fst_lt s a m (r0 + 1) _
            (row_encode_lt s.blockSize r0 j (r0 + 1) h3 (by omega))
        rw [hz]
      · rw [if_neg (by omega), ih (r0 + 1) r j (by omega) (by omega) h3]

lemma embOut_valid (s : EmbSpec) (a : EmbArgs) (hbs : 0 < s.blockSize)
    (hv : validArgs s a) (prior : Nat → ℚ) (r j : Nat)
    (hr : r < a.outputSize.toNat) (hj : j < s.blockSize) :
    embOut s a prior (r * s.blockSize + j) =
      normFactor s a r * rowSum s a r j := by
  rw [embOut, embKernel_valid s a hbs hv]
  rw [show (allWrites s a, true).1 = allWrites s a from rfl, allWrites]
  exact applyWrites_writesFrom s a a.outputSize.toNat 0 prior r j (by omega)
    (by omega) hj

lemma elemContrib_eq_spec (s : EmbSpec) (a : EmbArgs) (w : Option ℚ)
    (row j : Nat) :
    elemContrib s a w row j =
      (match w with | some wv => wv | none => 1) * specDequant s a row j := by
  cases w <;> cases h8 : s.is8bit <;>
    simp [elemContrib, specDequant, h8] <;> ring

lemma rowSum_eq_specRowVal (s : EmbSpec) (a : EmbArgs) (r j : Nat) :
    rowSum s a r j = specRowVal s a r j := by
  simp only [rowSum, cursorRowSum, specRowVal]
  apply Finset.sum_congr rfl
  intro k _
  rw [segContrib, elemContrib_eq_spec]
  cases hw : s.hasWeight <;> simp [wOptAt, specWeightAt, hw]

lemma maskAllows_iff (s : EmbSpec) (lane : Nat) :
    maskAllows s lane = decide (lane < remLanes s) := by
  cases h : s.avx512
  · by_cases hc : lane < remLanes s <;>
      simp [maskAllows, h, avx2MaskWord, hc]
  · simp [maskAllows, h, avx512KMask, Nat.testBit_two_pow_sub_one]

lemma loadByteEnd_le (s : EmbSpec) (i : Nat) (hi : i < numBlocks s) :
    loadByteEnd s i ≤ rowAllocBytes s := by
  cases h8 : s.is8bit <;> cases hv : s.avx512 <;>
    (simp [loadByteEnd, rowAllocBytes, numBlocks, remLanes, vlen, h8, hv]
      at hi ⊢) <;>
    first
    | (split_ifs <;> omega)
    | omega

lemma roleRegs_nodup_of_not_collision :
    ∀ b1 b2 b3 b4 b5 : Bool, ¬ (b2 = true ∧ b4 = true ∧ b5 = true) →
      (roleRegs (allocRegs b1 b2 b3 b4 b5)).Nodup := by decide

lemma roleRegs_range :
    ∀ b1 b2 b3 b4 b5 : Bool, ∀ x ∈ roleRegs (allocRegs b1 b2 b3 b4 b5),
      (allocRegs b1 b2 b3 b4 b5).unroll ≤ x ∧
        x < (if b1 then 32 else 16) := by decide

lemma unroll_add_roleRegs_length :
    ∀ b1 b2 b3 b4 b5 : Bool,
      (allocRegs b1 b2 b3 b4 b5).unroll +
        (roleRegs (allocRegs b1 b2 b3 b4 b5)).length =
        (if b1 then 32 else 16) := by decide

lemma allocRegs_collision :
    ∀ b1 b3 : Bool,
      (allocRegs b1 true b3 true true).vlenInvReg =
          (allocRegs b1 true b3 true true).tempReg ∧
        ([(allocRegs b1 true b3 true true).scaleReg,
          (allocRegs b1 true b3 true true).biasReg,
          (allocRegs b1 true b3 true true).cvtReg,
          (allocRegs b1 true b3 true true).wReg,
          (allocRegs b1 true b3 true true).tempReg,
          (allocRegs b1 true b3 true true).maskReg].filterMap id).Nodup := by
  decide

lemma embKernel_false_of_badIndex (s : EmbSpec) (a : EmbArgs)
    (hbs : 0 < s.blockSize) (p : Nat) (hp : (p : Int) < a.indexSize)
    (hbad : badIndexAt s a p) : (embKernel s a).2 = false := by
  rw [embKernel_false_iff s a hbs]
  by_cases hsz : (preConsumed a a.outputSize.toNat : Int) = a.indexSize
  · left
    have hplt : p < preConsumed a a.outputSize.toNat := by
      rw [← hsz] at hp
      exact_mod_cast hp
    obtain ⟨r, hr, k, hk, rfl⟩ := lt_preConsumed_mem a _ p hplt
    exact ⟨r, hr, Or.inr ⟨k, hk, hbad⟩⟩
  · right
    exact hsz

lemma lenSigned_eq_self (a : EmbArgs) (r : Nat)
    (hlo : -2147483648 ≤ a.lengths r) (hhi : a.lengths r < 2147483648) :
    lenSigned a r = a.lengths r := by
  simp only [lenSigned, len32]
  omega

lemma len32_big_of_neg (a : EmbArgs) (r : Nat)
    (hlo : -2147483648 ≤ a.lengths r) (hneg : a.lengths r < 0) :
    2147483648 ≤ len32 a r := by
  simp only [len32]
  omega

lemma rowOverrun_of_neg (a : EmbArgs) (r : Nat)
    (hsz : a.indexSize < 2147483648)
    (hlo : -2147483648 ≤ a.lengths r) (hneg : a.lengths r < 0) :
    rowOverrun a r := by
  have hbig := len32_big_of_neg a r hlo hneg
  have hnn : (0 : Int) ≤ (preConsumed a r : Int) := Int.natCast_nonneg _
  simp only [rowOverrun]
  omega

lemma badIndexAt_of_neg64 (s : EmbSpec) (a : EmbArgs) (p : Nat)
    (h64 : s.idx64 = true) (hneg : a.indices p < 0) : badIndexAt s a p := by
  simp [badIndexAt, idxVal, h64]
  omega

lemma badIndexAt_of_neg32 (s : EmbSpec) (a : EmbArgs) (p : Nat)
    (h32 : s.idx64 = false) (hds : a.dataSize ≤ 2147483648)
    (hlo : -2147483648 ≤ a.indices p) (hneg : a.indices p < 0) :
    badIndexAt s a p := by
  simp [badIndexAt, idxVal, h32]
  omega

lemma embKernel_first_error (s : EmbSpec) (a : EmbArgs)
    (hbs : 0 < s.blockSize) (r0 : Nat) (hr0 : r0 < a.outputSize.toNat)
    (hclean : ∀ i < r0, ¬ rowError s a i) (herr : rowError s a r0) :
    (embKernel s a).2 = false ∧ (embKernel s a).1 = writesFrom s a 0 r0 := by
  have h := runRows_err s a hbs a.outputSize.toNat r0 0 0 hr0
    (fun i2 _h1 h2 => hclean i2 (by omega))
    (by rw [Nat.zero_add]; exact herr)
    (fun _ => rfl)
  rw [show preConsumed a 0 = 0 from rfl] at h
  constructor
  · simp [embKernel, h.1]
  · simp [embKernel, h.2]

lemma writesFrom_fst_bound (s : EmbSpec) (a : EmbArgs) (m r0 p : Nat)
    (hp : p ∈ (writesFrom s a r0 m).map Prod.fst) :
    p < (r0 + m) * s.blockSize := by
  obtain ⟨r', _h1, h2, j', hj', rfl⟩ := mem_writesFrom_fst s a m r0 p hp
  exact row_encode_lt s.blockSize r' j' (r0 + m) hj' h2

lemma embOut_err_untouched (s : EmbSpec) (a : EmbArgs)
    (hbs : 0 < s.blockSize) (r0 : Nat) (hr0 : r0 < a.outputSize.toNat)
    (hclean : ∀ i < r0, ¬ rowError s a i) (herr : rowError s a r0)
    (prior : Nat → ℚ) (q : Nat) (hq : r0 * s.blockSize ≤ q) :
    embOut s a prior q = prior q := by
  rw [embOut, (embKernel_first_error s a hbs r0 hr0 hclean herr).2]
  apply applyWrites_not_mem
  intro hmem
  have hlt := writesFrom_fst_bound s a r0 0 q hmem
  rw [Nat.zero_add] at hlt
  omega

/-- Claim C4 (code bug): when generation fails and the generator returns a
null function pointer, the `EmbeddingSpMDM` dispatch on an AVX512- or
AVX2-capable host still transfers control to that null pointer instead of
taking the reference path or propagating a hard failure. -/
theorem claim4_dispatch_calls_null :
    embeddingDispatchTarget true false none = CallTarget.jitFn none ∧
      embeddingDispatchTarget false true none = CallTarget.jitFn none ∧
      CallTarget.jitFn none ≠ CallTarget.refFallback := by decide

/-- Claim C6 counterexample: on a cache miss whose generation fails, the GEMM
`getOrCreate` returns a null pointer but does not store its result under the
key — the key is still absent afterwards, contradicting "stores its result
under the key". -/
theorem claim6_counterexample :
    (gemmGetOrCreate (fun _ => none) ⟨true, 1, 1, 1, 1, 1, 1, 1⟩
        (fun _ => none)).2.1 ⟨true, 1, 1, 1, 1, 1, 1, 1⟩ ≠
        some ((gemmGetOrCreate (fun _ => none) ⟨true, 1, 1, 1, 1, 1, 1, 1⟩
          (fun _ => none)).1) ∧
      (gemmGetOrCreate (fun _ => none) ⟨true, 1, 1, 1, 1, 1, 1, 1⟩
        (fun _ => none)).1 = none ∧
      (gemmGetOrCreate (fun _ => none) ⟨true, 1, 1, 1, 1, 1, 1, 1⟩
        (fun _ => none)).2.2 = 1 := by decide

/-- Claim C6 (amended): if the key is present, `getOrCreate` returns the
cached pointer without invoking the generator and leaves the cache unchanged;
if the key is absent it invokes the generator exactly once — on success it
stores the result under the key, changes no other entry and returns it, and
on failure it returns a null pointer without storing anything. -/
theorem claim6_code_cache :
    ∀ (cache : GemmKernelSig → Option JitPtr) (key : GemmKernelSig)
      (gen : Unit → JitPtr),
      (∀ p, cache key = some p →
        gemmGetOrCreate cache key gen = (p, cache, 0)) ∧
      (cache key = none → ∀ v, gen () = some v →
        (gemmGetOrCreate cache key gen).1 = some v ∧
          (gemmGetOrCreate cache key gen).2.1 key = some (some v) ∧
          (∀ k2, k2 ≠ key →
            (gemmGetOrCreate cache key gen).2.1 k2 = cache k2) ∧
          (gemmGetOrCreate cache key gen).2.2 = 1) ∧
      (cache key = none → gen () = none →
        gemmGetOrCreate cache key gen = (none, cache, 1)) := by
  intro cache key gen
  refine ⟨?_, ?_, ?_⟩
  · intro p hp
    simp only [gemmGetOrCreate, hp]
  · intro hm v hg
    have h1 : (gemmGetOrCreate cache key gen).1 = some v := by
      simp [gemmGetOrCreate, hm, hg]
    have h2 : (gemmGetOrCreate cache key gen).2.1 key = some (some v) := by
      simp [gemmGetOrCreate, hm, hg]
    have h3 : ∀ k2, k2 ≠ key →
        (gemmGetOrCreate cache key gen).2.1 k2 = cache k2 := by
      intro k2 hk2
      simp [gemmGetOrCreate, hm, hg, hk2]
    have h4 : (gemmGetOrCreate cache key gen).2.2 = 1 := by
      simp [gemmGetOrCreate, hm, hg]
    exact ⟨h1, h2, h3, h4⟩
  · intro hm hg
    simp only [gemmGetOrCreate, hm, hg]

/-- Claim C6 witness: a cache-hit call returns the cached pointer without
invoking the generator. -/
theorem claim6_witness :
    gemmGetOrCreate (fun _ => some (some ())) ⟨true, 1, 1, 1, 1, 1, 1, 1⟩
        (fun _ => none) =
      (some (), fun _ => some (some ()), 0) :=
  (claim6_code_cache (fun _ => some (some ())) ⟨true, 1, 1, 1, 1, 1, 1, 1⟩
    (fun _ => none)).1 (some ()) rfl

/-- Claim C7 counterexample: two GEMM `getOrCreate` calls that differ only in
the k-depth `kc` build the same specialization key, and two blocking-parameter
sets that differ only in the row-interleave factor — an axis that changes the
emitted k-loop increment — also build the same key. -/
theorem claim7_counterexample :
    gemmKernelSigOfCall true 2 3 16 paramsA =
        gemmKernelSigOfCall true 2 3 32 paramsA ∧
      gemmKernelSigOfCall true 2 3 16 paramsA =
        gemmKernelSigOfCall true 2 3 16 paramsB ∧
      gemmKLoopStep paramsA ≠ gemmKLoopStep paramsB := by decide

/-- Claim C7 (amended): the embedding key contains all six of its
specialization axes (block size, weighting, positional weighting,
normalization, prefetch distance, 8-bit input) and is injective in them; the
GEMM key contains the accumulate flag, the m and n tile dimensions, and the
blocking parameters `NCB`, `KCB`, `MR`, `NR`, `NR_MIN`, and is injective in
those — but omits the call's k-depth and the row-interleave factor. -/
theorem claim7_key_axes :
    (∀ bs1 pf1 bs2 pf2 : Nat, ∀ hw1 po1 no1 i81 hw2 po2 no2 i82 : Bool,
        embKernelSig bs1 hw1 po1 no1 pf1 i81 =
          embKernelSig bs2 hw2 po2 no2 pf2 i82 →
        bs1 = bs2 ∧ hw1 = hw2 ∧ po1 = po2 ∧ no1 = no2 ∧ pf1 = pf2 ∧
          i81 = i82) ∧
      (∀ (a1 a2 : Bool) (m1 n1 k1 m2 n2 k2 : Nat)
          (p1 p2 : BlockingParams),
        gemmKernelSigOfCall a1 m1 n1 k1 p1 =
          gemmKernelSigOfCall a2 m2 n2 k2 p2 →
        a1 = a2 ∧ m1 = m2 ∧ n1 = n2 ∧ p1.NCB = p2.NCB ∧ p1.KCB = p2.KCB ∧
          p1.MR = p2.MR ∧ p1.NR = p2.NR ∧ p1.NR_MIN = p2.NR_MIN) := by
  constructor
  · intro bs1 pf1 bs2 pf2 hw1 po1 no1 i81 hw2 po2 no2 i82 h
    simp only [embKernelSig, Prod.mk.injEq] at h
    exact ⟨h.1, h.2.1, h.2.2.1, h.2.2.2.1, h.2.2.2.2.1, h.2.2.2.2.2⟩
  · intro a1 a2 m1 n1 k1 m2 n2 k2 p1 p2 h
    simp only [gemmKernelSigOfCall, GemmKernelSig.mk.injEq] at h
    exact ⟨h.1, h.2.1, h.2.2.1, h.2.2.2.1, h.2.2.2.2.1, h.2.2.2.2.2.1,
      h.2.2.2.2.2.2.1, h.2.2.2.2.2.2.2⟩

/-- Claim C7 witness: equal keys built from calls differing only in `kc`
force equal included axes. -/
theorem claim7_witness :
    paramsA.KCB = paramsA.KCB ∧ gemmKLoopStep paramsA = 4 :=
  ⟨((claim7_key_axes.2 true true 2 3 16 2 3 32 paramsA paramsA) rfl).2.2.2.2.1,
    rfl⟩

/-- Claim C8 (confirmed): GEMM kernel generation is gated by exactly the
three generation-time assertions — `kc` a multiple of the row-interleave
factor, `nc` a multiple of `NR_MIN`, and the `MR * (NR*ROW_INTERLEAVE*8/512)`
accumulator-register count at most 28 — and a configuration failing them
aborts generation rather than surfacing at run time. -/
theorem claim8_generation_asserts :
    ∀ (accum : Bool) (mc nc kc : Nat) (p : BlockingParams),
      ((gemmGenerate accum mc nc kc p).isSome = true ↔
        (kc % p.ROW_INTERLEAVE = 0 ∧ nc % p.NR_MIN = 0 ∧
          p.MR * (p.NR * p.ROW_INTERLEAVE * 8 / 512) ≤ 28)) ∧
      (¬ gemmGeneratorAsserts kc nc p → gemmGenerate accum mc nc kc p = none) := by
  intro accum mc nc kc p
  constructor
  · by_cases h : gemmGeneratorAsserts kc nc p
    · simp only [gemmGenerate, if_pos h]
      constructor
      · intro _hs
        exact h
      · intro _hc
        rfl
    · simp only [gemmGenerate, if_neg h]
      constructor
      · intro hf
        exact absurd hf (by simp)
      · intro hc
        exact absurd hc h
  · intro h
    simp only [gemmGenerate, if_neg h]

/-- Claim C9 counterexample: in the AVX2, 8-bit, weighted configuration with
a remainder and length normalization, the length-normalization reciprocal
register and the remainder temporary register are both vector register 10 —
two reserved roles overlap. -/
theorem claim9_counterexample :
    (allocRegs false true true true true).vlenInvReg = some 10 ∧
      (allocRegs false true true true true).tempReg = some 10 := by decide

/-- Claim C9 (amended): reserved role registers are pairwise distinct in
every configuration except that on 8-bit input with a remainder and
normalization the reciprocal-of-length register reuses the remainder
temporary's register (unused by the 8-bit path); every role register lies at
or above the unroll factor and below the hardware register count; and the
number of accumulator registers actually used never exceeds the hardware
register count minus the reserved role registers. -/
theorem claim9_register_roles :
    (∀ b1 b2 b3 b4 b5 : Bool, ¬ (b2 = true ∧ b4 = true ∧ b5 = true) →
        (roleRegs (allocRegs b1 b2 b3 b4 b5)).Nodup) ∧
      (∀ b1 b3 : Bool,
        (allocRegs b1 true b3 true true).vlenInvReg =
            (allocRegs b1 true b3 true true).tempReg ∧
          ([(allocRegs b1 true b3 true true).scaleReg,
            (allocRegs b1 true b3 true true).biasReg,
            (allocRegs b1 true b3 true true).cvtReg,
            (allocRegs b1 true b3 true true).wReg,
            (allocRegs b1 true b3 true true).tempReg,
            (allocRegs b1 true b3 true true).maskReg].filterMap id).Nodup) ∧
      (∀ (s : EmbSpec),
        ∀ x ∈ roleRegs (allocRegs s.avx512 s.is8bit s.hasWeight
          (remLanes s != 0) s.normalize),
        unrollFactor s ≤ x ∧ x < numVecReg s) ∧
      (∀ (s : EmbSpec),
        min (unrollFactor s) (numBlocks s) +
          (roleRegs (allocRegs s.avx512 s.is8bit s.hasWeight
            (remLanes s != 0) s.normalize)).length ≤ numVecReg s) := by
  refine ⟨roleRegs_nodup_of_not_collision, allocRegs_collision, ?_, ?_⟩
  · intro s x hx
    have h := roleRegs_range s.avx512 s.is8bit s.hasWeight (remLanes s != 0)
      s.normalize x hx
    refine ⟨h.1, ?_⟩
    simp only [numVecReg]
    exact h.2
  · intro s
    have h := unroll_add_roleRegs_length s.avx512 s.is8bit s.hasWeight
      (remLanes s != 0) s.normalize
    have he : unrollFactor s = (allocRegs s.avx512 s.is8bit s.hasWeight
        (remLanes s != 0) s.normalize).unroll := rfl
    have hm : min (unrollFactor s) (numBlocks s) ≤ unrollFactor s :=
      Nat.min_le_left _ _
    simp only [numVecReg]
    omega

/-- Claim C9 witness: in a configuration outside the exceptional one, the
reserved role registers are pairwise distinct. -/
theorem claim9_witness :
    (roleRegs (allocRegs false true true true false)).Nodup :=
  claim9_register_roles.1 false true true true false (by decide)

/-- Claim C8 witness: a legal configuration passes the three assertions and
generation succeeds. -/
theorem claim8_witness : (gemmGenerate true 2 32 16 paramsA).isSome = true :=
  (claim8_generation_asserts true 2 32 16 paramsA).1.mpr (by decide)

lemma normFactor_of_ge (s : EmbSpec) (a : EmbArgs) (r : Nat)
    (hn : s.normalize = true) (hlen : 1 ≤ lenSigned a r) :
    normFactor s a r = (lenSigned a r : ℚ)⁻¹ := by
  simp [normFactor, hn, show ¬ (lenSigned a r < 1) from by omega]

lemma normFactor_of_lt (s : EmbSpec) (a : EmbArgs) (r : Nat)
    (hn : s.normalize = true) (hlen : lenSigned a r < 1) :
    normFactor s a r = 0 := by
  simp [normFactor, hn, hlen]

/-- Claim C2 counterexample: with 32-bit indices the emitted
`mov r32, dword ptr [indices]` load zero-extends the stored value, so a
consumed in-buffer index holding the negative value `-2^31` zero-extends to
`2^31`, passes the range check against `data_size = 2^31 + 1`, and the
kernel returns true — refuting both the claim's iff and its "any negative
consumed index forces a false return". -/
theorem claim2_counterexample :
    neg32Args.indices 0 < 0 ∧ (0 : Int) < neg32Args.indexSize ∧
      (embKernel neg32Spec neg32Args).2 = true := by decide

/-- Claim C2 (amended): taking the supplied index count below `2^31` (so the
chunk-loop cursor rewind is exact), the kernel returns false exactly when a
processed row's loaded index register value — the raw value for 64-bit
indices, the zero-extension of the stored 32 bits for 32-bit indices — is
out of `[0, data_size)`, or a row's zero-extended 32-bit length would read
past the supplied index count, or the lengths do not consume exactly the
supplied index count.  In particular any such out-of-range register value in
the buffer forces a false return; a negative consumed 64-bit index always
forces a false return; a negative consumed 32-bit index forces one whenever
`data_size ≤ 2^31`. -/
theorem claim2_error_return :
    ∀ (s : EmbSpec) (a : EmbArgs), 0 < s.blockSize →
      a.indexSize < 2147483648 →
      ((embKernel s a).2 = false ↔
        (anyRowError s a ∨
          (preConsumed a a.outputSize.toNat : Int) ≠ a.indexSize)) ∧
      (∀ p : Nat, (p : Int) < a.indexSize → badIndexAt s a p →
        (embKernel s a).2 = false) ∧
      (s.idx64 = true → ∀ p : Nat, (p : Int) < a.indexSize →
        a.indices p < 0 → (embKernel s a).2 = false) ∧
      (s.idx64 = false → a.dataSize ≤ 2147483648 → ∀ p : Nat,
        (p : Int) < a.indexSize → -2147483648 ≤ a.indices p →
        a.indices p < 0 → (embKernel s a).2 = false) :=
  fun s a hbs _hsz =>
    ⟨embKernel_false_iff s a hbs,
      fun p hp hbad => embKernel_false_of_badIndex s a hbs p hp hbad,
      fun h64 p hp hneg => embKernel_false_of_badIndex s a hbs p hp
        (badIndexAt_of_neg64 s a p h64 hneg),
      fun h32 hds p hp hlo hneg => embKernel_false_of_badIndex s a hbs p hp
        (badIndexAt_of_neg32 s a p h32 hds hlo hneg)⟩

/-- Claim C2 witness: an index equal to `data_size` makes the kernel return
false. -/
theorem claim2_witness : (embKernel posSpec badArgs).2 = false :=
  ((claim2_error_return posSpec badArgs (by decide) (by decide)).1).mpr
    (Or.inl (by decide))

/-- Claim C3 counterexample: with normalization on and a stored 32-bit
length of `-1`, the claim says the output row is zeroed, but the emitted
overrun check multiplies the zero-extended length (`2^32 - 1`), fails, and
the kernel returns false with the row keeping its prior nonzero contents. -/
theorem claim3_counterexample :
    negLenSpec.normalize = true ∧ negLenArgs.lengths 0 < 1 ∧
      (embKernel negLenSpec negLenArgs).2 = false ∧
      embOut negLenSpec negLenArgs (fun _ => 5)
        (0 * negLenSpec.blockSize + 0) ≠ 0 := by
  refine ⟨rfl, by decide, by decide, ?_⟩
  rw [show embOut negLenSpec negLenArgs (fun _ => 5)
    (0 * negLenSpec.blockSize + 0) = 5 from rfl]
  norm_num

/-- Claim C3 (amended): taking the supplied index count below `2^31`, with
normalization on a valid row of 32-bit-range length at least 1 is divided by
exactly that length, and a valid row of length 0 is written as all zeros
regardless of the flag — but a row with a negative stored length is not
zeroed: its zero-extended length fails the overrun check, the kernel returns
false at that row, and (when no earlier row errs) the row keeps its prior
contents. -/
theorem claim3_normalization :
    ∀ (s : EmbSpec) (a : EmbArgs) (prior : Nat → ℚ) (r j : Nat),
      0 < s.blockSize → a.indexSize < 2147483648 →
      r < a.outputSize.toNat → j < s.blockSize →
      (validArgs s a → s.normalize = true → 1 ≤ a.lengths r →
        a.lengths r < 2147483648 →
        embOut s a prior (r * s.blockSize + j) =
          specRowVal s a r j / (a.lengths r : ℚ)) ∧
      (validArgs s a → a.lengths r = 0 →
        embOut s a prior (r * s.blockSize + j) = 0) ∧
      (-2147483648 ≤ a.lengths r → a.lengths r < 0 →
        (embKernel s a).2 = false) ∧
      ((∀ i < r, ¬ rowError s a i) → -2147483648 ≤ a.lengths r →
        a.lengths r < 0 →
        embOut s a prior (r * s.blockSize + j) =
          prior (r * s.blockSize + j)) := by
  intro s a prior r j hbs hsz hr hj
  refine ⟨?_, ?_, ?_, ?_⟩
  · intro hv hn hlen hhi
    have h := embOut_valid s a hbs hv prior r j hr hj
    rw [rowSum_eq_specRowVal] at h
    have hsig : lenSigned a r = a.lengths r :=
      lenSigned_eq_self a r (by omega) hhi
    rw [h, normFactor_of_ge s a r hn (by omega), hsig, div_eq_mul_inv,
      mul_comm]
  · intro hv hlen
    have h := embOut_valid s a hbs hv prior r j hr hj
    rw [rowSum_eq_specRowVal] at h
    have hsig : lenSigned a r = 0 := by
      rw [lenSigned_eq_self a r (by omega) (by omega), hlen]
    have hcnt : lenCount a r = 0 := by
      simp only [lenCount, hsig]
      rfl
    have hzero : specRowVal s a r j = 0 := by
      simp [specRowVal, hcnt]
    rw [h, hzero, mul_zero]
  · intro hlo hneg
    rw [embKernel_false_iff s a hbs]
    exact Or.inl ⟨r, hr, Or.inl (rowOverrun_of_neg a r hsz hlo hneg)⟩
  · intro hclean hlo hneg
    exact embOut_err_untouched s a hbs r hr hclean
      (Or.inl (rowOverrun_of_neg a r hsz hlo hneg)) prior
      (r * s.blockSize + j) (Nat.le_add_right _ _)

/-- Claim C3 witness: the normalized scenario row of length 2 is divided by
exactly 2. -/
theorem claim3_witness :
    embOut normSpec normArgs (fun _ => 0) (0 * normSpec.blockSize + 0) =
      specRowVal normSpec normArgs 0 0 / ((normArgs.lengths 0 : Int) : ℚ) :=
  (claim3_normalization normSpec normArgs (fun _ => 0) 0 0 (by decide)
    (by decide) (by decide) (by decide)).1 (by decide) rfl (by decide)
    (by decide)

/-- Claim C5 (confirmed): on valid inputs every output element of every
output row — the remainder lanes included — is written exactly once, every
written position lies inside the first `blockSize` floats of its output row,
the remainder mask (AVX2 byte mask, AVX512 predicate) passes exactly the
first `remainder` lanes, and every input-row load of the generated loop
stays within the row's allocated bytes (valid inputs — which the
zero-extended overrun check confines to nonnegative 32-bit-range lengths —
with the supplied index count below `2^31`, keeping the chunk-loop cursor
rewind exact). -/
theorem claim5_boundary_safety :
    ∀ (s : EmbSpec) (a : EmbArgs), 0 < s.blockSize →
      a.indexSize < 2147483648 → validArgs s a →
      (∀ r j : Nat, r < a.outputSize.toNat → j < s.blockSize →
        ((embKernel s a).1.map Prod.fst).count (r * s.blockSize + j) = 1) ∧
      (∀ p : Nat, p ∈ (embKernel s a).1.map Prod.fst →
        ∃ r < a.outputSize.toNat, ∃ j < s.blockSize,
          p = r * s.blockSize + j) ∧
      (∀ lane : Nat, maskAllows s lane = decide (lane < remLanes s)) ∧
      (∀ i : Nat, i < numBlocks s → loadByteEnd s i ≤ rowAllocBytes s) := by
  intro s a hbs _hsz hv
  have hk := embKernel_valid s a hbs hv
  refine ⟨?_, ?_, fun lane => maskAllows_iff s lane,
    fun i hi => loadByteEnd_le s i hi⟩
  · intro r j hr hj
    rw [hk, show (allWrites s a, true).1 = allWrites s a from rfl, allWrites]
    exact count_writesFrom s a a.outputSize.toNat 0 r j (by omega) (by omega)
      hj
  · intro p hp
    rw [hk, show (allWrites s a, true).1 = allWrites s a from rfl,
      allWrites] at hp
    obtain ⟨r', _h1, h2, j', hj', hpe⟩ := mem_writesFrom_fst s a _ 0 p hp
    exact ⟨r', by omega, j', hj', hpe⟩

/-- Claim C5 witness: in the scenario the last (remainder) lane of the
output row is written exactly once. -/
theorem claim5_witness :
    ((embKernel scenSpec scenArgs).1.map Prod.fst).count
      (0 * scenSpec.blockSize + 3) = 1 :=
  (claim5_boundary_safety scenSpec scenArgs (by decide) (by decide)
    (by decide)).1 0 3 (by decide) (by decide)

/-- Claim C10 (confirmed): the generated embedding kernel never reads the
output buffer — its stores are a function of the inputs alone, so two runs
over arbitrary different prior output contents agree at every written
position — unlike the GEMM store stage, whose accumulate mode reads the
prior contents of C. -/
theorem claim10_output_independence :
    (∀ (s : EmbSpec) (a : EmbArgs) (prior1 prior2 : Nat → ℚ) (p : Nat),
        p ∈ (embKernel s a).1.map Prod.fst →
        embOut s a prior1 p = embOut s a prior2 p) ∧
      (∃ (CRegs : Nat → Nat → Nat → ℤ) (prior1 prior2 : Nat → ℤ),
        gemmStoreOut true 16 CRegs prior1 0 0 0 ≠
          gemmStoreOut true 16 CRegs prior2 0 0 0) := by
  constructor
  · intro s a p1 p2 p hp
    exact applyWrites_mem_indep p1 p2 _ p hp
  · exact ⟨fun _ _ _ => 0, fun _ => 0, fun _ => 1, by decide⟩

/-- Claim C10 witness: the scenario output at element 2 is the same over a
zeroed and a nonzero prior output buffer. -/
theorem claim10_witness :
    embOut scenSpec scenArgs (fun _ => 0) 2 =
      embOut scenSpec scenArgs (fun _ => 7) 2 :=
  claim10_output_independence.1 scenSpec scenArgs (fun _ => 0) (fun _ => 7) 2
    (by decide)

/-- Claim C1 counterexample: the claim's formula with sequentially consumed
weights fails on a positional-weight invocation (the kernel restarts the
weight cursor at the array base for the second output row, giving 2 where
the sequential formula gives 3), and its plain-sum formula fails on a
normalized invocation (the kernel divides the sum 2 by the length 2). -/
theorem claim1_counterexample :
    (validArgs posSpec posArgs ∧
      embOut posSpec posArgs (fun _ => 0) (1 * posSpec.blockSize + 0) ≠
        claimRowVal posSpec posArgs 1 0) ∧
      validArgs normSpec normArgs ∧
      embOut normSpec normArgs (fun _ => 0) (0 * normSpec.blockSize + 0) ≠
        claimRowVal normSpec normArgs 0 0 := by
  refine ⟨⟨by decide, ?_⟩, by decide, ?_⟩
  · rw [embOut_valid posSpec posArgs (by decide) (by decide) (fun _ => 0) 1 0
      (by decide) (by decide), rowSum_eq_specRowVal]
    norm_num [normFactor, posSpec, specRowVal, specWeightAt, specDequant,
      claimRowVal, claimSeqWeightAt, preConsumed, posArgs, idxVal,
      lenCount, lenSigned, len32, Finset.sum_range_succ]
  · rw [embOut_valid normSpec normArgs (by decide) (by decide) (fun _ => 0)
      0 0 (by decide) (by decide), rowSum_eq_specRowVal]
    norm_num [normFactor, normSpec, specRowVal, specWeightAt, specDequant,
      claimRowVal, claimSeqWeightAt, preConsumed, normArgs, idxVal,
      lenCount, lenSigned, len32, Finset.sum_range_succ,
      show Int.toNat 2 = 2 from rfl]

/-- Claim C1 (amended): on valid inputs (with the supplied index count below
`2^31`, so the chunk-loop cursor rewind is exact) the kernel returns true
and each output element equals the normalization factor times the
elementwise sum, over the row's consumed indices, of `weight * dequant(row)`
— where the weight is 1 when unweighted, the next sequentially consumed
weight by default, and is re-read from the array base for every output row
in positional mode; in particular the concrete 8-bit scenario yields
`[6, 8, 10, 12]`. -/
theorem claim1_embedding_lookup :
    (∀ (s : EmbSpec) (a : EmbArgs) (prior : Nat → ℚ) (r j : Nat),
        0 < s.blockSize → a.indexSize < 2147483648 → validArgs s a →
        r < a.outputSize.toNat → j < s.blockSize →
        (embKernel s a).2 = true ∧
          embOut s a prior (r * s.blockSize + j) =
            normFactor s a r * specRowVal s a r j) ∧
      validArgs scenSpec scenArgs ∧
      embOut scenSpec scenArgs (fun _ => 0) 0 = 6 ∧
      embOut scenSpec scenArgs (fun _ => 0) 1 = 8 ∧
      embOut scenSpec scenArgs (fun _ => 0) 2 = 10 ∧
      embOut scenSpec scenArgs (fun _ => 0) 3 = 12 := by
  have hval : ∀ j2 : Nat, j2 < 4 →
      embOut scenSpec scenArgs (fun _ => 0) (0 * scenSpec.blockSize + j2) =
        normFactor scenSpec scenArgs 0 * rowSum scenSpec scenArgs 0 j2 :=
    fun j2 hj2 => embOut_valid scenSpec scenArgs (by decide) (by decide)
      (fun _ => 0) 0 j2 (by decide) hj2
  refine ⟨?_, by decide, ?_, ?_, ?_, ?_⟩
  · intro s a prior r j hbs _hsz hv hr hj
    refine ⟨by rw [embKernel_valid s a hbs hv], ?_⟩
    rw [embOut_valid s a hbs hv prior r j hr hj, rowSum_eq_specRowVal]
  · rw [show embOut scenSpec scenArgs (fun _ => 0) 0 =
      embOut scenSpec scenArgs (fun _ => 0) (0 * scenSpec.blockSize + 0)
      from rfl, hval 0 (by decide)]
    norm_num [normFactor, scenSpec, rowSum, cursorRowSum, segContrib,
      elemContrib, wOptAt, preConsumed, scenArgs, idxVal,
      lenCount, lenSigned, len32,
      Finset.sum_range_succ, Finset.sum_range_zero,
      show Int.toNat 2 = 2 from rfl]
  · rw [show embOut scenSpec scenArgs (fun _ => 0) 1 =
      embOut scenSpec scenArgs (fun _ => 0) (0 * scenSpec.blockSize + 1)
      from rfl, hval 1 (by decide)]
    norm_num [normFactor, scenSpec, rowSum, cursorRowSum, segContrib,
      elemContrib, wOptAt, preConsumed, scenArgs, idxVal,
      lenCount, lenSigned, len32,
      Finset.sum_range_succ, Finset.sum_range_zero,
      show Int.toNat 2 = 2 from rfl]
  · rw [show embOut scenSpec scenArgs (fun _ => 0) 2 =
      embOut scenSpec scenArgs (fun _ => 0) (0 * scenSpec.blockSize + 2)
      from rfl, hval 2 (by decide)]
    norm_num [normFactor, scenSpec, rowSum, cursorRowSum, segContrib,
      elemContrib, wOptAt, preConsumed, scenArgs, idxVal,
      lenCount, lenSigned, len32,
      Finset.sum_range_succ, Finset.sum_range_zero,
      show Int.toNat 2 = 2 from rfl]
  · rw [show embOut scenSpec scenArgs (fun _ => 0) 3 =
      embOut scenSpec scenArgs (fun _ => 0) (0 * scenSpec.blockSize + 3)
      from rfl, hval 3 (by decide)]
    norm_num [normFactor, scenSpec, rowSum, cursorRowSum, segContrib,
      elemContrib, wOptAt, preConsumed, scenArgs, idxVal,
      lenCount, lenSigned, len32,
      Finset.sum_range_succ, Finset.sum_range_zero,
      show Int.toNat 2 = 2 from rfl]

/-- Claim C1 witness: the general statement applied to the concrete
scenario. -/
theorem claim1_witness :
    (embKernel scenSpec scenArgs).2 = true ∧
      embOut scenSpec scenArgs (fun _ => 0) (0 * scenSpec.blockSize + 1) =
        normFactor scenSpec scenArgs 0 * specRowVal scenSpec scenArgs 0 1 :=
  claim1_embedding_lookup.1 scenSpec scenArgs (fun _ => 0) 0 1 (by decide)
    (by decide) (by decide) (by decide) (by decide)
